import Mathlib

/-!
# Verification of the bc_news_update pipeline

A shallow embedding, in Lean 4, of the deduplication-and-delivery pipeline of
`bc_news_update.py`: URL/title normalization, SHA-256 content fingerprinting,
the persistent "seen" store with schema migration, within-run merging with a
recency tie-break, age classification, retried HTTP requests, and batched
outbound delivery.

Conventions of the embedding:
* Python strings are `String`/`List Char`; machine-level details that the
  claims do not touch (full Unicode case folding, the exotic Unicode
  whitespace classes) are modelled over the ASCII classes actually exercised
  by the program, and noted at each definition.
* Timestamps (`datetime` values) are modelled as `Int` (a totally ordered,
  unbounded time axis); absent timestamps are `Option.none`, as in the code.
* The SQLite connection is modelled as explicit state: a list of rows in
  insertion order, which is exactly what the `INSERT OR IGNORE` /
  `SELECT` statements of the program observe.
* Network effects (`requests`, Telegram) are modelled by oracles: a function
  from attempt index to outcome for the retry logic, and by collecting the
  texts handed to the sink for the batch dispatcher.
-/

namespace BCNews

/-! ## Character classes (Python `str.strip`, `\s`, `str.lower`) -/

/-- Python whitespace as exercised by this program: the six ASCII whitespace
characters matched by `str.strip()` and by `\s` in `re` (the model restricts
Python's Unicode-aware classes to their ASCII core). -/
def isPyWs (c : Char) : Bool :=
  c.toNat == 32 || c.toNat == 9 || c.toNat == 10 ||
  c.toNat == 13 || c.toNat == 11 || c.toNat == 12

/-- `str.lower()` on one character (ASCII case mapping, the fragment of
Python's Unicode lowering that the program's data exercises). -/
def pyLowerChar (c : Char) : Char :=
  if 65 ≤ c.toNat ∧ c.toNat ≤ 90 then Char.ofNat (c.toNat + 32) else c

/-- `str.strip()` : drop leading and trailing whitespace. -/
def stripList (l : List Char) : List Char :=
  ((l.dropWhile isPyWs).reverse.dropWhile isPyWs).reverse

/-- Auxiliary state machine for `re.sub(r"\s+", " ", t)`: the flag records
whether the previous character belonged to a whitespace run that has already
emitted its single replacement space. -/
def collapseWsAux : List Char → Bool → List Char
  | [], _ => []
  | c :: rest, prevWs =>
    if isPyWs c then
      if prevWs then collapseWsAux rest true
      else Char.ofNat 32 :: collapseWsAux rest true
    else c :: collapseWsAux rest false

/-- `re.sub(r"\s+", " ", t)` : replace each maximal whitespace run by one
space. -/
def collapseWs (l : List Char) : List Char := collapseWsAux l false

/-- The quote glyphs removed by `re.sub(r"[“”\"'’]+", "", t)` : LEFT DOUBLE
QUOTATION MARK U+201C, RIGHT DOUBLE QUOTATION MARK U+201D, the straight
double quote, the straight apostrophe, and RIGHT SINGLE QUOTATION MARK
U+2019.  (The LEFT SINGLE QUOTATION MARK U+2018 is not in the set.) -/
def QUOTE_CHARS : List Char :=
  [Char.ofNat 0x201C, Char.ofNat 0x201D, Char.ofNat 34, Char.ofNat 39,
   Char.ofNat 0x2019]

/-- Removal of every occurrence of a quote glyph (`re.sub` of a character
class with the empty replacement is plain character filtering). -/
def removeQuotes (l : List Char) : List Char :=
  l.filter (fun c => !(QUOTE_CHARS.contains c))

/-- `normalize_title` from `bc_news_update.py`:
empty input short-circuits, otherwise strip, lowercase, collapse whitespace
runs to one space, then delete quote glyphs — in that order. -/
def normalize_title (t : String) : String :=
  if t = "" then ""
  else ⟨removeQuotes (collapseWs ((stripList t.toList).map pyLowerChar))⟩

/-! ## UTF-8 and percent coding (`urllib.parse.unquote` / `quote_plus`) -/

/-- UTF-8 encoding of one code point. -/
def utf8EncodeChar (c : Char) : List Nat :=
  let n := c.toNat
  if n < 0x80 then [n]
  else if n < 0x800 then [0xC0 + n / 64, 0x80 + n % 64]
  else if n < 0x10000 then
    [0xE0 + n / 4096, 0x80 + (n / 64) % 64, 0x80 + n % 64]
  else
    [0xF0 + n / 262144, 0x80 + (n / 4096) % 64, 0x80 + (n / 64) % 64,
     0x80 + n % 64]

/-- A UTF-8 continuation byte. -/
def isCont (b : Nat) : Bool := 0x80 ≤ b && b ≤ 0xBF

/-- U+FFFD REPLACEMENT CHARACTER. -/
def replChar : Char := Char.ofNat 0xFFFD

/-- Recursion core of UTF-8 decoding with replacement.  The first argument
is fuel; every step consumes at least one byte, so fuel equal to the list
length (as supplied by `utf8DecodeReplace`) never runs out — the fuel only
makes the recursion structural. -/
def utf8DecodeGo : Nat → List Nat → List Char
  | 0, _ => []
  | _, [] => []
  | fuel + 1, b :: rest =>
    if b < 0x80 then Char.ofNat b :: utf8DecodeGo fuel rest
    else if 0xC2 ≤ b && b ≤ 0xDF then
      match rest with
      | b2 :: rest2 =>
        if isCont b2 then
          Char.ofNat ((b - 0xC0) * 64 + (b2 - 0x80)) :: utf8DecodeGo fuel rest2
        else replChar :: utf8DecodeGo fuel (b2 :: rest2)
      | [] => [replChar]
    else if 0xE0 ≤ b && b ≤ 0xEF then
      match rest with
      | b2 :: b3 :: rest3 =>
        if isCont b2 && isCont b3 then
          let n := (b - 0xE0) * 4096 + (b2 - 0x80) * 64 + (b3 - 0x80)
          if 0x800 ≤ n && !(0xD800 ≤ n && n ≤ 0xDFFF) then
            Char.ofNat n :: utf8DecodeGo fuel rest3
          else replChar :: utf8DecodeGo fuel (b2 :: b3 :: rest3)
        else replChar :: utf8DecodeGo fuel (b2 :: b3 :: rest3)
      | [b2] => replChar :: utf8DecodeGo fuel [b2]
      | [] => [replChar]
    else if 0xF0 ≤ b && b ≤ 0xF4 then
      match rest with
      | b2 :: b3 :: b4 :: rest4 =>
        if isCont b2 && isCont b3 && isCont b4 then
          let n := (b - 0xF0) * 262144 + (b2 - 0x80) * 4096 +
                   (b3 - 0x80) * 64 + (b4 - 0x80)
          if 0x10000 ≤ n && n ≤ 0x10FFFF then
            Char.ofNat n :: utf8DecodeGo fuel rest4
          else replChar :: utf8DecodeGo fuel (b2 :: b3 :: b4 :: rest4)
        else replChar :: utf8DecodeGo fuel (b2 :: b3 :: b4 :: rest4)
      | [b2, b3] => replChar :: utf8DecodeGo fuel [b2, b3]
      | [b2] => replChar :: utf8DecodeGo fuel [b2]
      | [] => [replChar]
    else replChar :: utf8DecodeGo fuel rest

/-- UTF-8 decoding with replacement (`bytes.decode("utf-8", errors="replace")`;
on an invalid sequence the model emits one U+FFFD and resynchronises after the
offending lead byte, which agrees with CPython on every well-formed input). -/
def utf8DecodeReplace (l : List Nat) : List Char := utf8DecodeGo l.length l

/-- Value of a hexadecimal digit character, if any. -/
def hexVal? (c : Char) : Option Nat :=
  if 48 ≤ c.toNat ∧ c.toNat ≤ 57 then some (c.toNat - 48)
  else if 97 ≤ c.toNat ∧ c.toNat ≤ 102 then some (c.toNat - 87)
  else if 65 ≤ c.toNat ∧ c.toNat ≤ 70 then some (c.toNat - 55)
  else none

/-- First pass of `urllib.parse.unquote`: each valid `%XX` escape becomes a
byte (`Sum.inr`), every other character is kept literally (`Sum.inl`). -/
def percentScanGo : Nat → List Char → List (Sum Char Nat)
  | 0, _ => []
  | _, [] => []
  | fuel + 1, c :: rest =>
    if c = '%' then
      match rest with
      | a :: b :: rest2 =>
        match hexVal? a, hexVal? b with
        | some x, some y => Sum.inr (16 * x + y) :: percentScanGo fuel rest2
        | _, _ => Sum.inl c :: percentScanGo fuel (a :: b :: rest2)
      | [a] => Sum.inl c :: percentScanGo fuel [a]
      | [] => [Sum.inl c]
    else Sum.inl c :: percentScanGo fuel rest

/-- First pass of `unquote` over a whole string; every step of the core
consumes at least one character, so fuel equal to the length never runs
out — it only makes the recursion structural. -/
def percentScan (l : List Char) : List (Sum Char Nat) :=
  percentScanGo l.length l

/-- Is the token a decoded byte? -/
def isByteTok : Sum Char Nat → Bool
  | Sum.inr _ => true
  | Sum.inl _ => false

/-- The byte of a byte token. -/
def tokByte : Sum Char Nat → Nat
  | Sum.inr b => b
  | Sum.inl _ => 0

/-- Second pass of `unquote`: maximal runs of decoded bytes are UTF-8 decoded
together (so multi-byte escapes decode correctly), literal characters pass
through.  The accumulator holds the currently pending byte run, reversed. -/
def unquoteDecodeAux : List (Sum Char Nat) → List Nat → List Char
  | [], acc => utf8DecodeReplace acc.reverse
  | Sum.inl c :: rest, acc =>
    utf8DecodeReplace acc.reverse ++ c :: unquoteDecodeAux rest []
  | Sum.inr b :: rest, acc => unquoteDecodeAux rest (b :: acc)

/-- Second pass of `unquote` on a whole token list. -/
def unquoteDecode (l : List (Sum Char Nat)) : List Char := unquoteDecodeAux l []

/-- `urllib.parse.unquote(s, errors="replace")`. -/
def pyUnquote (l : List Char) : List Char := unquoteDecode (percentScan l)

/-- `s.replace("+", " ")` followed by `unquote`, as `parse_qsl` does for each
name and value. -/
def unquotePlus (l : List Char) : List Char :=
  pyUnquote (l.map (fun c => if c = '+' then Char.ofNat 32 else c))

/-- The characters `urllib.parse.quote` never escapes
(letters, digits, `_`, `.`, `-`, `~`). -/
def isAlwaysSafe (c : Char) : Bool :=
  c.isAlpha || c.isDigit || c = Char.ofNat 95 || c = Char.ofNat 46 ||
  c = Char.ofNat 45 || c = Char.ofNat 126

/-- Upper-case hexadecimal digit. -/
def hexUpper (n : Nat) : Char :=
  if n < 10 then Char.ofNat (48 + n) else Char.ofNat (55 + n)

/-- `urllib.parse.quote_plus` with `safe=""`: safe characters pass through,
a space becomes `+`, every other character is UTF-8 encoded and each byte
percent-escaped in upper-case hex. -/
def quotePlus (l : List Char) : List Char :=
  l.flatMap fun c =>
    if isAlwaysSafe c then [c]
    else if c = Char.ofNat 32 then [Char.ofNat 43]
    else (utf8EncodeChar c).flatMap
      (fun b => [Char.ofNat 37, hexUpper (b / 16), hexUpper (b % 16)])

/-! ## `urllib.parse.urlsplit` / `urlunsplit` / `parse_qsl` / `urlencode` -/

/-- Split a list at every occurrence of `sep` (Python `str.split`), keeping
empty segments. -/
def splitOnChar (sep : Char) : List Char → List (List Char)
  | [] => [[]]
  | c :: rest =>
    match splitOnChar sep rest with
    | [] => [[]]
    | seg :: segs => if c = sep then [] :: seg :: segs else (c :: seg) :: segs

/-- Split at the first occurrence of `sep` (Python `str.split(sep, 1)`):
returns the part before it and, when `sep` occurs, the part after it. -/
def splitFirstAt (sep : Char) : List Char → List Char × Option (List Char)
  | [] => ([], none)
  | c :: rest =>
    if c = sep then ([], some rest)
    else
      let r := splitFirstAt sep rest
      (c :: r.1, r.2)

/-- The result of `urlsplit`. -/
structure SplitResult where
  scheme : List Char
  netloc : List Char
  path : List Char
  query : List Char
  fragment : List Char
deriving DecidableEq, Repr

/-- A character of CPython's `scheme_chars` (letters, digits, `+`, `-`, `.`). -/
def isSchemeChar (c : Char) : Bool :=
  c.isAlpha || c.isDigit || c = '+' || c = '-' || c = '.'

/-- Scan for `scheme:`: succeeds at the first `:` when all preceding
characters are scheme characters (`acc` holds them reversed). -/
def schemeSplitGo : List Char → List Char → Option (List Char × List Char)
  | [], _ => none
  | c :: rest, acc =>
    if c = ':' then some (acc.reverse, rest)
    else if isSchemeChar c then schemeSplitGo rest (c :: acc)
    else none

/-- CPython's scheme detection in `urlsplit`: a split happens only when the
`:` is preceded by a non-empty run of scheme characters starting with an
ASCII letter. -/
def splitScheme : List Char → Option (List Char × List Char)
  | [] => none
  | c :: rest => if c.isAlpha then schemeSplitGo rest [c] else none

/-- WHATWG "C0 control or space" (code points ≤ 0x20), left-stripped by
`urlsplit`. -/
def isC0OrSpace (c : Char) : Bool := c.toNat ≤ 32

/-- `urllib.parse.urlsplit` (CPython 3.11): left-strip C0 controls and
spaces, delete every tab/CR/LF, detect the scheme (lower-casing it), take the
netloc after `//` up to the first `/`, `?` or `#`, then split off fragment
and query.  The model omits only the checks that raise `ValueError` on
malformed IPv6/netloc input. -/
def pyUrlsplit (u0 : List Char) : SplitResult :=
  let u1 := u0.dropWhile isC0OrSpace
  let u2 := u1.filter
    (fun c => !(c = Char.ofNat 9 || c = Char.ofNat 13 || c = Char.ofNat 10))
  let sp := match splitScheme u2 with
    | some (s, rest) => (s.map pyLowerChar, rest)
    | none => (([] : List Char), u2)
  let scheme := sp.1
  let u3 := sp.2
  let np :=
    if u3.take 2 = ['/', '/'] then
      let nl := (u3.drop 2).takeWhile (fun c => !(c = '/' || c = '?' || c = '#'))
      (nl, (u3.drop 2).drop nl.length)
    else (([] : List Char), u3)
  let netloc := np.1
  let u4 := np.2
  let fs := splitFirstAt '#' u4
  let u5 := fs.1
  let fragment := fs.2.getD []
  let qs := splitFirstAt '?' u5
  ⟨scheme, netloc, qs.1, qs.2.getD [], fragment⟩

/-- CPython's `uses_netloc` list (the registry consulted by `urlunsplit`). -/
def USES_NETLOC : List (List Char) :=
  ([""] ++ ["ftp", "http", "gopher", "nntp", "telnet", "imap", "wais", "file",
    "mms", "https", "shttp", "snews", "prospero", "rtsp", "rtsps", "rtspu",
    "rsync", "svn", "svn+ssh", "sftp", "nfs", "git", "git+ssh", "ws",
    "wss"]).map String.toList

/-- `urllib.parse.urlunsplit` (CPython 3.11). -/
def pyUrlunsplit (scheme netloc path query fragment : List Char) :
    List Char :=
  let url := path
  let url :=
    if !netloc.isEmpty ||
       (!scheme.isEmpty && USES_NETLOC.contains scheme && url.take 2 ≠ ['/', '/'])
    then
      let url' := if !url.isEmpty && url.take 1 ≠ ['/'] then '/' :: url else url
      '/' :: '/' :: (netloc ++ url')
    else url
  let url := if !scheme.isEmpty then scheme ++ ':' :: url else url
  let url := if !query.isEmpty then url ++ '?' :: query else url
  let url := if !fragment.isEmpty then url ++ '#' :: fragment else url
  url

/-- `urllib.parse.parse_qsl(qs, keep_blank_values=True)`: split on `&`,
skip empty segments, split each segment at the first `=` (missing value
becomes the empty string), and unquote names and values. -/
def pyParseQsl (qs : List Char) : List (List Char × List Char) :=
  if qs.isEmpty then []
  else
    (splitOnChar '&' qs).filterMap fun nv =>
      if nv.isEmpty then none
      else
        let s := splitFirstAt '=' nv
        some (unquotePlus s.1, unquotePlus (s.2.getD []))

/-- `"&".join(...)`. -/
def joinAmp : List (List Char) → List Char
  | [] => []
  | [s] => s
  | s :: rest => s ++ '&' :: joinAmp rest

/-- `urllib.parse.urlencode` on a list of pairs (default `quote_via`,
i.e. `quote_plus`): quote each name and value and join `name=value` segments
with `&`. -/
def pyUrlencode (pairs : List (List Char × List Char)) : List Char :=
  joinAmp (pairs.map fun kv => quotePlus kv.1 ++ '=' :: quotePlus kv.2)

/-! ## `norm_url` -/

/-- The deny-list `TRACKING_PARAMS` of `bc_news_update.py`. -/
def TRACKING_PARAMS : List (List Char) :=
  (["utm_source", "utm_medium", "utm_campaign", "utm_term", "utm_content",
    "fbclid", "gclid"]).map String.toList

/-- `norm_url` from `bc_news_update.py`: empty input short-circuits;
otherwise take the part before the first `#`, strip it, `urlsplit` it, drop
the deny-listed query parameters, re-encode the survivors and reassemble
with an empty fragment. -/
def norm_url (u : String) : String :=
  if u = "" then ""
  else
    let l := stripList (u.toList.takeWhile (fun c => c ≠ '#'))
    let parts := pyUrlsplit l
    let q := (pyParseQsl parts.query).filter
      (fun kv => !(TRACKING_PARAMS.contains kv.1))
    ⟨pyUrlunsplit parts.scheme parts.netloc parts.path (pyUrlencode q) []⟩

/-! ## SHA-256 (`hashlib.sha256(...).hexdigest()`) -/

/-- Truncation to 32 bits. -/
def mask32 (x : Nat) : Nat := x % 4294967296

/-- 32-bit right rotation (arguments below 2^32). -/
def rotr32 (x n : Nat) : Nat := mask32 ((x >>> n) ||| (x <<< (32 - n)))

/-- SHA-256 Σ₀. -/
def bsig0 (x : Nat) : Nat := rotr32 x 2 ^^^ rotr32 x 13 ^^^ rotr32 x 22

/-- SHA-256 Σ₁. -/
def bsig1 (x : Nat) : Nat := rotr32 x 6 ^^^ rotr32 x 11 ^^^ rotr32 x 25

/-- SHA-256 σ₀. -/
def ssig0 (x : Nat) : Nat := rotr32 x 7 ^^^ rotr32 x 18 ^^^ (x >>> 3)

/-- SHA-256 σ₁. -/
def ssig1 (x : Nat) : Nat := rotr32 x 17 ^^^ rotr32 x 19 ^^^ (x >>> 10)

/-- SHA-256 Ch. -/
def chF (x y z : Nat) : Nat := (x &&& y) ^^^ ((x ^^^ 0xFFFFFFFF) &&& z)

/-- SHA-256 Maj. -/
def majF (x y z : Nat) : Nat := (x &&& y) ^^^ (x &&& z) ^^^ (y &&& z)

/-- The 64 SHA-256 round constants. -/
def SHA_K : List Nat :=
  [1116352408, 1899447441, 3049323471, 3921009573, 961987163, 1508970993,
    2453635748, 2870763221, 3624381080, 310598401, 607225278, 1426881987,
    1925078388, 2162078206, 2614888103, 3248222580, 3835390401, 4022224774,
    264347078, 604807628, 770255983, 1249150122, 1555081692, 1996064986,
    2554220882, 2821834349, 2952996808, 3210313671, 3336571891, 3584528711,
    113926993, 338241895, 666307205, 773529912, 1294757372, 1396182291,
    1695183700, 1986661051, 2177026350, 2456956037, 2730485921, 2820302411,
    3259730800, 3345764771, 3516065817, 3600352804, 4094571909, 275423344,
    430227734, 506948616, 659060556, 883997877, 958139571, 1322822218,
    1537002063, 1747873779, 1955562222, 2024104815, 2227730452, 2361852424,
    2428436474, 2756734187, 3204031479, 3329325298]

/-- The SHA-256 initial hash value. -/
def SHA_H0 : List Nat :=
  [1779033703, 3144134277, 1013904242, 2773480762, 1359893119, 2600822924,
    528734635, 1541459225]

/-- SHA-256 message padding: append `0x80`, zero bytes up to 56 mod 64, and
the 64-bit big-endian bit length. -/
def sha256Pad (msg : List Nat) : List Nat :=
  let len := msg.length
  let padZeros := (119 - len % 64) % 64
  msg ++ [0x80] ++ List.replicate padZeros 0 ++
    (List.range 8).map (fun i => ((8 * len) >>> (8 * (7 - i))) % 256)

/-- The 16 big-endian 32-bit words of a 64-byte block. -/
def bytesToWords (block : List Nat) : List Nat :=
  (List.range 16).map (fun i =>
    (block.getD (4 * i) 0) <<< 24 + (block.getD (4 * i + 1) 0) <<< 16 +
    (block.getD (4 * i + 2) 0) <<< 8 + block.getD (4 * i + 3) 0)

/-- Extension of the 16-word block to the 64-word message schedule. -/
def msgSchedule (w16 : List Nat) : List Nat :=
  (List.range 48).foldl
    (fun w _ =>
      w ++ [mask32 (ssig1 (w.getD (w.length - 2) 0) + w.getD (w.length - 7) 0 +
                    ssig0 (w.getD (w.length - 15) 0) + w.getD (w.length - 16) 0)])
    w16

/-- One SHA-256 round on the state `[a,b,c,d,e,f,g,h]`. -/
def compressRound (k w : Nat) (s : List Nat) : List Nat :=
  match s with
  | [a, b, c, d, e, f, g, h] =>
    let t1 := mask32 (h + bsig1 e + chF e f g + k + w)
    let t2 := mask32 (bsig0 a + majF a b c)
    [mask32 (t1 + t2), a, b, c, mask32 (d + t1), e, f, g]
  | _ => s

/-- SHA-256 compression of one 64-byte block into the running hash. -/
def compressBlock (h : List Nat) (block : List Nat) : List Nat :=
  let w := msgSchedule (bytesToWords block)
  let s := (List.zip SHA_K w).foldl (fun s kw => compressRound kw.1 kw.2 s) h
  (List.zip h s).map (fun p => mask32 (p.1 + p.2))

/-- Recursion core of the split into 64-byte chunks; each step consumes 64
bytes, so fuel equal to the length (supplied by `chunks64`) never runs out —
it only makes the recursion structural. -/
def chunks64Go : Nat → List Nat → List (List Nat)
  | 0, _ => []
  | _, [] => []
  | fuel + 1, b :: rest => (b :: rest).take 64 :: chunks64Go fuel ((b :: rest).drop 64)

/-- Split a byte list into 64-byte chunks. -/
def chunks64 (l : List Nat) : List (List Nat) := chunks64Go l.length l

/-- SHA-256 of a byte string, as 32 bytes. -/
def sha256Bytes (msg : List Nat) : List Nat :=
  let hh := (chunks64 (sha256Pad msg)).foldl compressBlock SHA_H0
  hh.flatMap (fun w => [(w >>> 24) % 256, (w >>> 16) % 256, (w >>> 8) % 256,
                        w % 256])

/-- Lower-case hexadecimal digit. -/
def hexLower (n : Nat) : Char :=
  if n < 10 then Char.ofNat (48 + n) else Char.ofNat (87 + n)

/-- Lower-case hex rendering of a byte string (`hexdigest()`). -/
def bytesToHex (bs : List Nat) : List Char :=
  bs.flatMap (fun b => [hexLower (b / 16), hexLower (b % 16)])

/-- `s.encode("utf-8")`. -/
def utf8Bytes (s : String) : List Nat := s.toList.flatMap utf8EncodeChar

/-- `hashlib.sha256(s.encode("utf-8")).hexdigest()`. -/
def sha256HexUtf8 (s : String) : String := ⟨bytesToHex (sha256Bytes (utf8Bytes s))⟩

/-- `make_fingerprint` from `bc_news_update.py`: the SHA-256 hex digest of
`norm_url(url) + "|" + normalize_title(title)`. -/
def make_fingerprint (url title : String) : String :=
  sha256HexUtf8 (norm_url url ++ "|" ++ normalize_title title)

/-! ## The seen store (`init_db`, `is_seen`, `mark_seen`)

The SQLite table is modelled as its observable content: the list of rows in
insertion order.  `INSERT OR IGNORE` inserts at the end unless the primary
key is already present. -/

/-- One row of the current-layout `seen` table. -/
structure SeenRecord where
  fingerprint : String
  url : String
  title : String
  first_seen_utc : String
deriving DecidableEq, Repr

/-- The three shapes the database file can be in when `init_db` runs:
no `seen` table yet, the old layout `seen(url PRIMARY KEY, first_seen_utc)`,
or the current layout keyed by fingerprint. -/
inductive DbState
  | empty
  | old (rows : List (String × String))
  | new (rows : List SeenRecord)
deriving DecidableEq, Repr

/-- `INSERT OR IGNORE INTO seen ... VALUES (r)`: a no-op when the primary
key `fingerprint` is already present. -/
def insertIgnore (rows : List SeenRecord) (r : SeenRecord) : List SeenRecord :=
  if rows.any (fun x => x.fingerprint == r.fingerprint) then rows
  else rows ++ [r]

/-- The migration loop of `init_db`: for each old row `(url, first_seen_utc)`
insert-or-ignore a record keyed by `make_fingerprint(url, "")` with an empty
title and the preserved timestamp. -/
def migrateRows (oldRows : List (String × String)) : List SeenRecord :=
  oldRows.foldl
    (fun acc ut => insertIgnore acc ⟨make_fingerprint ut.1 "", ut.1, "", ut.2⟩)
    []

/-- `init_db` from `bc_news_update.py`: create the current-layout table when
none exists; leave a current-layout table alone (the `fingerprint` column is
present); migrate an old-layout table row by row.  (The renamed `seen_old`
table that the code leaves behind is not part of the observable `seen`
state.) -/
def init_db : DbState → DbState
  | DbState.empty => DbState.new []
  | DbState.new rows => DbState.new rows
  | DbState.old rows => DbState.new (migrateRows rows)

/-- The rows of a store in the current layout (after `init_db`). -/
def dbRows : DbState → List SeenRecord
  | DbState.new rows => rows
  | _ => []

/-- `is_seen`: `SELECT 1 FROM seen WHERE fingerprint = ?` is a point lookup. -/
def is_seen (rows : List SeenRecord) (fp : String) : Bool :=
  rows.any (fun r => r.fingerprint == fp)

/-- `mark_seen`: insert-or-ignore a record for `fp`; the `first_seen_utc`
written on a real insert is `datetime.now(timezone.utc).isoformat()`, passed
here explicitly as `ts`. -/
def mark_seen (rows : List SeenRecord) (fp url title ts : String) :
    List SeenRecord :=
  insertIgnore rows ⟨fp, url, title, ts⟩

/-! ## Candidate items, the within-run merge, and the age gate -/

/-- A candidate item, as the dicts built by the fetchers: `published_utc` is
an optional UTC timestamp, modelled as seconds since the epoch on the
unbounded axis `Int` (every real `datetime` in the program is strictly above
`datetime.min`, which the sort keys use as the stand-in for "no date"). -/
structure Item where
  source : String
  title : String
  url : String
  published_utc : Option Int
deriving DecidableEq, Repr

/-- The guard `if not it.get("url") and not it.get("title"): continue` —
an item is kept for grouping iff its URL or its title is non-empty. -/
def usable (it : Item) : Bool := !(it.url == "" && it.title == "")

/-- The grouping key `make_fingerprint(it.get("url",""), it.get("title",""))`. -/
def fpOf (it : Item) : String := make_fingerprint it.url it.title

/-- The merge tie-break of `main`: a dated candidate replaces an undated
representative; with both dated, the strictly more recent wins; otherwise
the existing representative stays. -/
def pickNewer (oldIt cand : Item) : Item :=
  match oldIt.published_utc, cand.published_utc with
  | none, some _ => cand
  | some op, some np => if op < np then cand else oldIt
  | _, _ => oldIt

/-- One step of the `by_fp` loop: unusable items are skipped; a new
fingerprint is appended (dict insertion order); an existing entry is
resolved with `pickNewer`. -/
def mergeStep (acc : List (String × Item)) (it : Item) : List (String × Item) :=
  if usable it then
    let fp := fpOf it
    if acc.any (fun p => p.1 == fp) then
      acc.map (fun p => if p.1 == fp then (p.1, pickNewer p.2 it) else p)
    else acc ++ [(fp, it)]
  else acc

/-- The `by_fp` dict after the dedup loop, as an insertion-ordered
association list with pairwise-distinct keys. -/
def mergeAssoc (items : List Item) : List (String × Item) :=
  items.foldl mergeStep []

/-- `items = list(by_fp.values())`. -/
def mergeItems (items : List Item) : List Item :=
  (mergeAssoc items).map (fun p => p.2)

/-- The comparator realising
`sorted(items, key=lambda x: x.get("published_utc") or datetime.min, reverse=True)`:
`a` may come before `b` iff `key b ≤ key a`, with a missing timestamp below
every real one. -/
def pubKeyGe (a b : Item) : Bool :=
  match a.published_utc, b.published_utc with
  | _, none => true
  | some x, some y => decide (y ≤ x)
  | none, some _ => false

/-- The descending, stable sort of the merged items (Python's `sorted` is
stable; for equal keys `pubKeyGe` holds in both orders and `mergeSort` keeps
the original order, exactly as `reverse=True` does). -/
def sortItems (items : List Item) : List Item := items.mergeSort pubKeyGe

/-- The loop state of the classification/gate loop of `main`. -/
structure RunAcc where
  rows : List SeenRecord
  new_items : List Item
  too_old : Nat
  no_date : Nat
  seen_skip : Nat
deriving DecidableEq, Repr

/-- One iteration of the loop: no timestamp counts `no_date`; a timestamp
before `cutoff` counts `too_old`; otherwise the fingerprint is computed and
either skipped as seen or marked and collected for delivery. -/
def processItem (cutoff : Int) (nowIso : String) (st : RunAcc) (it : Item) :
    RunAcc :=
  match it.published_utc with
  | none => { st with no_date := st.no_date + 1 }
  | some pub =>
    if pub < cutoff then { st with too_old := st.too_old + 1 }
    else
      let fp := make_fingerprint it.url it.title
      if is_seen st.rows fp then { st with seen_skip := st.seen_skip + 1 }
      else { st with rows := mark_seen st.rows fp it.url it.title nowIso,
                     new_items := st.new_items ++ [it] }

/-- The classification/gate loop over a prepared (merged and sorted) item
list, starting from a given store. -/
def runFilter (cutoff : Int) (nowIso : String) (rows : List SeenRecord)
    (items : List Item) : RunAcc :=
  items.foldl (processItem cutoff nowIso) ⟨rows, [], 0, 0, 0⟩

/-- The three mutually exclusive outcomes of the age gate for one item. -/
inductive Outcome
  | no_date
  | too_old
  | eligible
deriving DecidableEq, Repr

/-- The branch structure of the loop, as a total classification. -/
def classify (cutoff : Int) (it : Item) : Outcome :=
  match it.published_utc with
  | none => Outcome.no_date
  | some pub => if pub < cutoff then Outcome.too_old else Outcome.eligible

/-- `main`'s data path from the concatenated fetch results to the loop
result: dedup by fingerprint, sort newest first, then classify and gate. -/
def runPipeline (cutoff : Int) (nowIso : String) (rows : List SeenRecord)
    (raw : List Item) : RunAcc :=
  runFilter cutoff nowIso rows (sortItems (mergeItems raw))

/-! ## `request_with_retry` -/

/-- Recursion core of `request_with_retry`.  `i` is the index of the next
attempt, the second argument the number of attempts still allowed
(`max_tries - i`), `lastErr` the error of the most recent failed attempt.
Returns the result (`Except.error lastErr` once attempts are exhausted,
mirroring `raise last_err`), the total number of attempts performed, and
the list of back-off sleeps `backoff_s * 2**i` executed between attempts. -/
def retryGo {E R : Type} (attempts : Nat → Except E R) (backoff : ℚ) :
    Nat → Nat → Option E → Except (Option E) R × Nat × List ℚ
  | i, 0, lastErr => (Except.error lastErr, i, [])
  | i, remaining + 1, _lastErr =>
    match attempts i with
    | Except.ok r => (Except.ok r, i + 1, [])
    | Except.error e =>
      let r2 := retryGo attempts backoff (i + 1) remaining (some e)
      (r2.1, r2.2.1,
        (if 0 < remaining then [backoff * 2 ^ i] else []) ++ r2.2.2)

/-- `request_with_retry` with the transport modelled as an oracle from
attempt index to outcome: try up to `maxTries` times, sleeping
`backoff * 2**i` after each failed attempt except the last, return the
first success, and surface the last error once all attempts failed. -/
def request_with_retry {E R : Type} (attempts : Nat → Except E R)
    (maxTries : Nat) (backoff : ℚ) : Except (Option E) R × Nat × List ℚ :=
  retryGo attempts backoff 0 maxTries none

/-! ## Rendering and batched dispatch -/

/-- `MAX_ITEMS_PER_BATCH` from the settings block. -/
def MAX_ITEMS_PER_BATCH : Nat := 1

/-- The batching loop of `send_updates_batched`: flush whenever the batch
reaches `maxB` items, then flush the remainder. -/
def sendBatchesGo (maxB : Nat) : List Item → List Item → List (List Item)
  | [], batch => if batch.isEmpty then [] else [batch]
  | it :: rest, batch =>
    let b := batch ++ [it]
    if maxB ≤ b.length then b :: sendBatchesGo maxB rest []
    else sendBatchesGo maxB rest b

/-- The list of batches `_send_one_batch` is called on, in call order
(`send_updates_batched` returns at once on an empty update list). -/
def sendBatches (maxB : Nat) (updates : List Item) : List (List Item) :=
  if updates.isEmpty then [] else sendBatchesGo maxB updates []

/-- Civil date from days since 1970-01-01 (the standard era-based
conversion; all operands are non-negative for the epochs this program
handles, so Lean's `Int` division agrees with the C-style floors). -/
def civilFromDays (z0 : Int) : Int × Int × Int :=
  let z := z0 + 719468
  let era := (if 0 ≤ z then z else z - 146096) / 146097
  let doe := z - era * 146097
  let yoe := (doe - doe / 1460 + doe / 36524 - doe / 146096) / 365
  let y := yoe + era * 400
  let doy := doe - (365 * yoe + yoe / 4 - yoe / 100)
  let mp := (5 * doy + 2) / 153
  let d := doy - (153 * mp + 2) / 5 + 1
  let m := mp + (if mp < 10 then 3 else -9)
  (y + (if m ≤ 2 then 1 else 0), m, d)

/-- Zero-padded two-digit field of `strftime`. -/
def pad2 (n : Int) : String :=
  if n < 10 then "0" ++ toString n else toString n

/-- `fmt_wib`: `None` renders as `"Unknown"`, otherwise the timestamp is
shifted to UTC+7 (`WIB`) and formatted `"%Y-%m-%d %H:%M WIB"`. -/
def fmt_wib : Option Int → String
  | none => "Unknown"
  | some t =>
    let t' := t + 25200
    let days := Int.fdiv t' 86400
    let secs := Int.emod t' 86400
    let ymd := civilFromDays days
    toString ymd.1 ++ "-" ++ pad2 ymd.2.1 ++ "-" ++ pad2 ymd.2.2 ++ " " ++
      pad2 (secs / 3600) ++ ":" ++ pad2 (secs % 3600 / 60) ++ " WIB"

/-- The static keyword→tag table of `make_hashtags`, in source order. -/
def TAGS : List (List String × String) :=
  [(["djbc", "bea cukai", "customs"], "#DJBC"),
   (["kemenkeu", "kementerian keuangan", "menkeu", "sri mulyani"], "#Kemenkeu"),
   (["kanwil", "kppbc", "kantor bea cukai"], "#KantorBC"),
   (["purbaya yudhi", "purbaya yudhi sadewa", "purbaya"], "#Purbaya"),
   (["marunda", "kawasan marunda", "pelabuhan marunda"], "#Marunda"),
   (["impor", "import"], "#Impor"),
   (["ekspor", "export"], "#Ekspor"),
   (["transit"], "#Transit"),
   (["re-ekspor", "reekspor"], "#ReEkspor"),
   (["plb", "pusat logistik berikat"], "#PLB"),
   (["kawasan berikat", "kb"], "#KawasanBerikat"),
   (["kite", "ikm"], "#KITE"),
   (["gudang berikat"], "#GudangBerikat"),
   (["penindakan", "operasi", "sitaan", "gagalkan"], "#Penindakan"),
   (["penyelundupan", "smuggling", "ilegal"], "#Penyelundupan"),
   (["rokok ilegal", "rokok tanpa pita cukai"], "#RokokIlegal"),
   (["narkoba", "drug", "meth", "sabu", "kokain"], "#Narkotika"),
   (["miras", "minuman keras"], "#Miras"),
   (["barang kena cukai"], "#BKC"),
   (["tarif", "bea masuk"], "#BeaMasuk"),
   (["pajak", "ppn", "pnbp"], "#PenerimaanNegara"),
   (["cukai"], "#Cukai"),
   (["anti dumping", "bea masuk anti dumping"], "#AntiDumping"),
   (["safeguard"], "#Safeguard"),
   (["aturan", "pmk", "peraturan", "regulasi"], "#Regulasi"),
   (["revisi aturan", "perubahan pmk"], "#PerubahanAturan"),
   (["wco"], "#WCO"),
   (["wto"], "#WTO"),
   (["asean"], "#ASEAN"),
   (["fta", "perjanjian perdagangan"], "#FTA"),
   (["ska", "certificate of origin", "coo"], "#SKA"),
   (["pelabuhan", "tanjung priok"], "#TanjungPriok"),
   (["soekarno hatta", "bandara"], "#Bandara"),
   (["logistik", "supply chain"], "#Logistik"),
   (["container", "peti kemas"], "#Container"),
   (["tembakau"], "#Tembakau"),
   (["rokok"], "#Rokok"),
   (["tekstil", "tpt"], "#Tekstil"),
   (["baja", "steel"], "#Baja"),
   (["otomotif"], "#Otomotif"),
   (["elektronik"], "#Elektronik"),
   (["minyak sawit", "cpo"], "#Sawit"),
   (["transformasi", "digitalisasi"], "#Digitalisasi"),
   (["zona integritas"], "#ZonaIntegritas"),
   (["reformasi birokrasi"], "#ReformasiBirokrasi"),
   (["pengawasan"], "#Pengawasan")]

/-- Does `hay` start with `needle`? -/
def beginsWith : List Char → List Char → Bool
  | _, [] => true
  | [], _ :: _ => false
  | h :: hs, n :: ns => h = n && beginsWith hs ns

/-- Python's substring test `needle in hay` (contiguous occurrence). -/
def hasSubstr (hay needle : List Char) : Bool :=
  match hay with
  | [] => needle.isEmpty
  | _ :: rest => beginsWith hay needle || hasSubstr rest needle

/-- `make_hashtags`: lowercase title and URL, collect in table order every
tag one of whose keywords occurs in either, fall back to `#BCNews`, and cap
at five tags. -/
def make_hashtags (title url : String) : List String :=
  let t := title.toList.map pyLowerChar
  let u := url.toList.map pyLowerChar
  let out := (TAGS.filter
    (fun kt => kt.1.any
      (fun k => hasSubstr t k.toList || hasSubstr u k.toList))).map
    (fun kt => kt.2)
  (if out.isEmpty then ["#BCNews"] else out).take 5

/-- `short_display_url` (called with its default `max_len = 60`):
netloc + path, a trailing `?` when a query is present, truncated with a
`…` past 60 characters. -/
def short_display_url (u : String) : String :=
  if u = "" then ""
  else
    let parts := pyUrlsplit u.toList
    let display :=
      parts.netloc ++ parts.path ++ (if parts.query.isEmpty then [] else ['?'])
    if 60 < display.length then ⟨display.take 59 ++ [Char.ofNat 0x2026]⟩
    else ⟨display⟩

/-- `html.escape` with the default `quote=True`. -/
def htmlEscapeChar (c : Char) : List Char :=
  if c = '&' then "&amp;".toList
  else if c = '<' then "&lt;".toList
  else if c = '>' then "&gt;".toList
  else if c.toNat = 34 then "&quot;".toList
  else if c.toNat = 39 then "&#x27;".toList
  else [c]

/-- `html.escape` on a string. -/
def htmlEscape (s : String) : String := ⟨s.toList.flatMap htmlEscapeChar⟩

/-- The six lines `_send_one_batch` emits per item (the leading empty line,
then title, WIB timestamp, source, hashtags, and the HTML link). -/
def renderItemLines (it : Item) : List String :=
  let title : String := ⟨stripList it.title.toList⟩
  let url : String := ⟨stripList it.url.toList⟩
  let src : String :=
    ⟨stripList (if it.source = "" then "-" else it.source).toList⟩
  let tags := String.intercalate " " (make_hashtags title url)
  ["",
   "📰 " ++ htmlEscape title,
   "🕒 " ++ fmt_wib it.published_utc,
   "📌 " ++ htmlEscape src,
   "🏷️ " ++ htmlEscape tags,
   "🔗 <a href=\"" ++ htmlEscape url ++ "\">" ++
     htmlEscape (short_display_url url) ++ "</a>"]

/-- The text `_send_one_batch` builds for one batch. -/
def renderBatch (batch : List Item) : String :=
  String.intercalate "\n"
    ("🛃 BC News Update (latest)" :: batch.flatMap renderItemLines)

/-- Recursion core of `str.splitlines(True)`, restricted to the terminators
this program can produce (`\n`, `\r\n`, `\r`); the accumulator holds the
current line reversed, and fuel equal to the input length (as supplied by
`pySplitlines`) never runs out — it only makes the recursion structural. -/
def splitlinesGo : Nat → List Char → List Char → List (List Char)
  | _, [], acc => if acc.isEmpty then [] else [acc.reverse]
  | 0, l, acc => [acc.reverse ++ l]
  | fuel + 1, c :: rest, acc =>
    if c = '\n' then (acc.reverse ++ ['\n']) :: splitlinesGo fuel rest []
    else if c = '\r' then
      match rest with
      | '\n' :: rest2 =>
        (acc.reverse ++ ['\r', '\n']) :: splitlinesGo fuel rest2 []
      | _ => (acc.reverse ++ ['\r']) :: splitlinesGo fuel rest []
    else splitlinesGo fuel rest (c :: acc)

/-- `str.splitlines(True)`. -/
def pySplitlines (l : List Char) : List (List Char) :=
  splitlinesGo l.length l []

/-- `chunk_text` with its default `limit = 3500`: short texts pass through
whole; long texts are agglomerated line by line, flushing the current chunk
whenever the next line would overflow the limit. -/
def chunk_text (text : String) : List String :=
  if text.length ≤ 3500 then [text]
  else
    let fin := (pySplitlines text.toList).foldl
      (fun (st : List (List Char) × List Char) line =>
        if 3500 < st.2.length + line.length then (st.1 ++ [st.2], line)
        else (st.1, st.2 ++ line))
      ([], [])
    (fin.1 ++ (if fin.2.isEmpty then [] else [fin.2])).map (fun l => ⟨l⟩)

/-- The texts handed to `telegram_send`, in order, for one update list:
each batch is rendered and chunked.  (Whether `telegram_send` actually
performs the HTTP call depends only on the configured bot token, not on the
text.) -/
def sinkSends (updates : List Item) : List String :=
  (sendBatches MAX_ITEMS_PER_BATCH updates).flatMap
    (fun b => chunk_text (renderBatch b))

/-- One `mark_seen` call, as data: fingerprint, url, title, timestamp. -/
structure MarkOp where
  fp : String
  url : String
  title : String
  ts : String
deriving DecidableEq, Repr

/-- A sequence of `mark_seen` calls applied to a store. -/
def applyMarks (rows : List SeenRecord) (ops : List MarkOp) : List SeenRecord :=
  ops.foldl (fun r op => mark_seen r op.fp op.url op.title op.ts) rows

/-- The record an old row `(url, first_seen_utc)` is migrated into. -/
def migratedRecord (ut : String × String) : SeenRecord :=
  ⟨make_fingerprint ut.1 "", ut.1, "", ut.2⟩

/-- First of three concrete eligible items (newest). -/
def itemX : Item :=
  ⟨"GoogleNews", "Bea cukai update satu", "https://news.example/x", some 259200⟩

/-- Second of three concrete eligible items. -/
def itemY : Item :=
  ⟨"NewsAPI:Antara", "Bea cukai update dua", "https://news.example/y", some 172800⟩

/-- Third of three concrete eligible items (oldest). -/
def itemZ : Item :=
  ⟨"GoogleNews", "Bea cukai update tiga", "https://news.example/z", some 86400⟩

/-- The value stored under a fingerprint in the `by_fp` association list
(the dict lookup). -/
def lookupFp (acc : List (String × Item)) (fp : String) : Option Item :=
  (acc.find? (fun p => p.1 == fp)).map (fun p => p.2)

/-- The group of a fingerprint: the usable items of the run (both URL and
title not empty is not required — only one of them) whose fingerprint is
`fp`, in arrival order. -/
def groupOf (items : List Item) (fp : String) : List Item :=
  (items.filter usable).filter (fun it => fpOf it == fp)

/-- The representative the tie-break selects from a group: the fold of
`pickNewer` over the group, seeded with its first element. -/
def repOf : List Item → Option Item
  | [] => none
  | h :: t => some (t.foldl pickNewer h)

/-- Whitespace canonicity of a character list, scanned left to right: the
flag says a whitespace character would be illegal here (at the start and
right after whitespace).  Checks: no leading/trailing whitespace, no two
adjacent whitespace characters, and every whitespace character is the plain
space. -/
def wsTidyAux : List Char → Bool → Bool
  | [], afterWs => !afterWs
  | c :: rest, afterWs =>
    if isPyWs c then !afterWs && (c.toNat == 32) && wsTidyAux rest true
    else wsTidyAux rest false

/-- Whitespace canonicity: trimmed, single plain spaces only. -/
def wsTidy : List Char → Bool
  | [] => true
  | c :: rest => wsTidyAux (c :: rest) true

/-- A well-formed absolute URL assembled from its parts: scheme, `://`,
host, path, an optional query (prefixed with `?` when non-empty) and an
optional fragment (prefixed with `#`). -/
def buildUrl (sch host path query : List Char) (frag : Option (List Char)) :
    List Char :=
  sch ++ ':' :: '/' :: '/' :: host ++ path ++
    (if query.isEmpty then [] else '?' :: query) ++
    (match frag with
     | none => []
     | some f => '#' :: f)

/-- A syntactically plausible scheme: non-empty, leading ASCII letter, rest
scheme characters. -/
def schemeOkB : List Char → Bool
  | [] => false
  | c :: rest => c.isAlpha && rest.all isSchemeChar

/-- A plausible host character: printable (above space) and none of the
netloc delimiters. -/
def hostCharOk (c : Char) : Bool :=
  32 < c.toNat && !(c = '/') && !(c = '?') && !(c = '#')

/-- A plausible host: non-empty with plausible characters. -/
def hostOkB (host : List Char) : Bool := !host.isEmpty && host.all hostCharOk

/-- A plausible path character: printable and not a query/fragment
delimiter. -/
def pathCharOk (c : Char) : Bool :=
  32 < c.toNat && !(c = '?') && !(c = '#')

/-- A plausible path: empty, or starting with `/` with plausible
characters. -/
def pathOkB (path : List Char) : Bool :=
  path.isEmpty || (path.take 1 = ['/'] && path.all pathCharOk)

/-- Query pairs whose names and values consist only of characters that
percent-coding leaves untouched. -/
def pairsOkB (pairs : List (List Char × List Char)) : Bool :=
  pairs.all (fun kv => kv.1.all isAlwaysSafe && kv.2.all isAlwaysSafe)

/-- A list consisting solely of Python whitespace. -/
def allWs (l : List Char) : Bool := l.all isPyWs

/-- The whitespace flag of the collapse state machine after consuming `x`
starting from flag `f`: the flag tracks whether the last consumed character
was whitespace. -/
def wsFlagAfter (x : List Char) (f : Bool) : Bool :=
  x.foldl (fun _ c => isPyWs c) f

end BCNews

namespace BCNews

/-! ## Seen-store lemmas -/

/-- `mark_seen` for a different fingerprint does not change what `is_seen`
reports for `fp`. -/
theorem is_seen_mark_seen_ne (rows : List SeenRecord) (fp fp' u t ts : String)
    (h : fp' ≠ fp) : is_seen (mark_seen rows fp' u t ts) fp = is_seen rows fp := by
  simp only [mark_seen, insertIgnore]
  split
  · rfl
  · simp [is_seen, List.any_append, h]

/-- A trace of `mark_seen` calls, none of them for `fp`, does not change
what `is_seen` reports for `fp`. -/
theorem is_seen_applyMarks (ops : List MarkOp) (rows : List SeenRecord)
    (fp : String) (h : ∀ op ∈ ops, op.fp ≠ fp) :
    is_seen (applyMarks rows ops) fp = is_seen rows fp := by
  induction ops generalizing rows with
  | nil => rfl
  | cons op rest ih =>
    have h1 : op.fp ≠ fp := h op (List.mem_cons_self op rest)
    have h2 : ∀ o ∈ rest, o.fp ≠ fp := fun o ho => h o (List.mem_cons_of_mem op ho)
    simp only [applyMarks, List.foldl_cons]
    have hih := ih (mark_seen rows op.fp op.url op.title op.ts) h2
    simp only [applyMarks] at hih
    rw [hih, is_seen_mark_seen_ne rows fp op.fp op.url op.title op.ts h1]

/-- After `mark_seen rows fp …`, `is_seen … fp` holds. -/
theorem is_seen_mark_seen_self (rows : List SeenRecord) (fp u t ts : String) :
    is_seen (mark_seen rows fp u t ts) fp = true := by
  simp only [mark_seen, insertIgnore]
  split
  · next hcond => simpa [is_seen] using hcond
  · simp [is_seen, List.any_append]

/-- `mark_seen` on an already-seen fingerprint is the identity on the store. -/
theorem mark_seen_of_seen (rows : List SeenRecord) (fp u t ts : String)
    (h : is_seen rows fp = true) : mark_seen rows fp u t ts = rows := by
  simp only [mark_seen, insertIgnore]
  split
  · rfl
  · next hcond => exact absurd h (by simpa [is_seen] using hcond)

/-- C3: for every fingerprint `fp` and every store reachable from the fresh
store by `mark_seen` calls for other fingerprints, `is_seen fp` is false
before any `mark_seen fp …`, true after one, and a second, redundant
`mark_seen fp …` (with any url/title/timestamp) leaves the store — including
the first record and its `first_seen_utc` — entirely unchanged, so
`is_seen fp` stays true. -/
theorem c3_seen_store_gate (ops : List MarkOp) (fp u t ts u' t' ts' : String)
    (h : ∀ op ∈ ops, op.fp ≠ fp) :
    is_seen (applyMarks (dbRows (init_db DbState.empty)) ops) fp = false ∧
    is_seen (mark_seen (applyMarks (dbRows (init_db DbState.empty)) ops)
      fp u t ts) fp = true ∧
    mark_seen (mark_seen (applyMarks (dbRows (init_db DbState.empty)) ops)
        fp u t ts) fp u' t' ts' =
      mark_seen (applyMarks (dbRows (init_db DbState.empty)) ops) fp u t ts := by
  refine ⟨?_, ?_, ?_⟩
  · rw [is_seen_applyMarks ops _ fp h]; rfl
  · exact is_seen_mark_seen_self _ fp u t ts
  · exact mark_seen_of_seen _ fp u' t' ts'
      (is_seen_mark_seen_self _ fp u t ts)

/-- Witness for `c3_seen_store_gate` at a concrete trace and fingerprint. -/
theorem c3_seen_store_gate_witness :
    is_seen (applyMarks (dbRows (init_db DbState.empty))
      [⟨"fpA", "uA", "tA", "2024"⟩]) "fpB" = false ∧
    is_seen (mark_seen (applyMarks (dbRows (init_db DbState.empty))
      [⟨"fpA", "uA", "tA", "2024"⟩]) "fpB" "uB" "tB" "2025") "fpB" = true ∧
    mark_seen (mark_seen (applyMarks (dbRows (init_db DbState.empty))
        [⟨"fpA", "uA", "tA", "2024"⟩]) "fpB" "uB" "tB" "2025")
        "fpB" "uB2" "tB2" "2026" =
      mark_seen (applyMarks (dbRows (init_db DbState.empty))
        [⟨"fpA", "uA", "tA", "2024"⟩]) "fpB" "uB" "tB" "2025" :=
  c3_seen_store_gate [⟨"fpA", "uA", "tA", "2024"⟩] "fpB" "uB" "tB" "2025"
    "uB2" "tB2" "2026" (by decide)

/-! ## Migration lemmas -/

/-- The migration fold appends one record per old row whenever all the
involved fingerprints are distinct. -/
theorem migrate_foldl_nodup (rows : List (String × String)) :
    ∀ acc : List SeenRecord,
    (rows.map (fun ut => make_fingerprint ut.1 "")).Nodup →
    (∀ r ∈ acc, ∀ ut ∈ rows, r.fingerprint ≠ make_fingerprint ut.1 "") →
    rows.foldl (fun acc ut => insertIgnore acc (migratedRecord ut)) acc =
      acc ++ rows.map migratedRecord := by
  induction rows with
  | nil => intro acc _ _; simp
  | cons ut rest ih =>
    intro acc hnd hacc
    simp only [List.map_cons, List.nodup_cons, List.mem_map] at hnd
    obtain ⟨hnotin, hnd'⟩ := hnd
    have hcond : (acc.any
        (fun x => x.fingerprint == (migratedRecord ut).fingerprint)) = false := by
      rw [List.any_eq_false]
      intro x hx
      simpa [migratedRecord] using hacc x hx ut (List.mem_cons_self _ _)
    simp only [List.foldl_cons]
    have hstep : insertIgnore acc (migratedRecord ut) = acc ++ [migratedRecord ut] := by
      simp only [insertIgnore, hcond, Bool.false_eq_true, if_false]
    rw [hstep, ih (acc ++ [migratedRecord ut]) hnd' ?_]
    · simp
    · intro r hr ut' hut'
      rcases List.mem_append.mp hr with h | h
      · exact hacc r h ut' (List.mem_cons_of_mem _ hut')
      · have : r = migratedRecord ut := by simpa using h
        subst this
        simp only [migratedRecord]
        intro hEq
        exact hnotin ⟨ut', hut', hEq.symm⟩

/-- C2 (amended): when the fingerprints computed from the old rows are
pairwise distinct, every old record is migrated into exactly one
current-layout record, in order, with the key `make_fingerprint(url, "")`,
an empty title and the preserved `first_seen_utc`; when two old rows collide
on the fingerprint only the first is kept (see the counterexample).  On a
store already in the current layout `init_db` changes nothing, and running
`init_db` twice always equals running it once. -/
theorem c2_migration_amended :
    (∀ rows : List (String × String),
      (rows.map (fun ut => make_fingerprint ut.1 "")).Nodup →
      init_db (DbState.old rows) = DbState.new (rows.map migratedRecord)) ∧
    (∀ rows : List SeenRecord, init_db (DbState.new rows) = DbState.new rows) ∧
    (∀ s : DbState, init_db (init_db s) = init_db s) := by
  refine ⟨?_, fun rows => rfl, ?_⟩
  · intro rows hnd
    have h := migrate_foldl_nodup rows [] hnd (by intro r hr; cases hr)
    simp only [init_db, migrateRows]
    rw [show (rows.foldl
      (fun acc ut => insertIgnore acc ⟨make_fingerprint ut.1 "", ut.1, "", ut.2⟩)
      ([] : List SeenRecord)) =
      rows.foldl (fun acc ut => insertIgnore acc (migratedRecord ut)) [] from rfl,
      h, List.nil_append]
  · intro s
    cases s <;> rfl

/-- Witness for `c2_migration_amended` at a one-row old store, an empty
current store and a fresh store. -/
theorem c2_migration_amended_witness :
    init_db (DbState.old [("https://news.example/a", "2024-05-01")]) =
      DbState.new [migratedRecord ("https://news.example/a", "2024-05-01")] ∧
    init_db (DbState.new []) = DbState.new [] ∧
    init_db (init_db DbState.empty) = init_db DbState.empty := by
  refine ⟨?_, c2_migration_amended.2.1 [], c2_migration_amended.2.2 DbState.empty⟩
  simpa using
    c2_migration_amended.1 [("https://news.example/a", "2024-05-01")] (by simp)

/-- C2 (counterexample): two old rows whose URLs differ only by a tracking
parameter collide on the migrated fingerprint, so `INSERT OR IGNORE` drops
the second one — the migrated store has a single record and the second row's
`first_seen_utc` is gone, while the claim promises one record per old
record. -/
theorem c2_migration_counterexample :
    init_db (DbState.old
      [("https://example.com/a?utm_source=x", "2024-01-01T00:00:00+00:00"),
       ("https://example.com/a", "2024-01-02T00:00:00+00:00")]) =
      DbState.new [⟨make_fingerprint "https://example.com/a?utm_source=x" "",
        "https://example.com/a?utm_source=x", "",
        "2024-01-01T00:00:00+00:00"⟩] ∧
    ∀ r ∈ dbRows (init_db (DbState.old
      [("https://example.com/a?utm_source=x", "2024-01-01T00:00:00+00:00"),
       ("https://example.com/a", "2024-01-02T00:00:00+00:00")])),
      r.first_seen_utc ≠ "2024-01-02T00:00:00+00:00" := by
  have hfp : make_fingerprint "https://example.com/a" "" =
      make_fingerprint "https://example.com/a?utm_source=x" "" := by
    show sha256HexUtf8 _ = sha256HexUtf8 _
    exact congrArg sha256HexUtf8 (by decide)
  have h1 : init_db (DbState.old
      [("https://example.com/a?utm_source=x", "2024-01-01T00:00:00+00:00"),
       ("https://example.com/a", "2024-01-02T00:00:00+00:00")]) =
      DbState.new [⟨make_fingerprint "https://example.com/a?utm_source=x" "",
        "https://example.com/a?utm_source=x", "",
        "2024-01-01T00:00:00+00:00"⟩] := by
    simp [init_db, migrateRows, insertIgnore, hfp]
  refine ⟨h1, ?_⟩
  rw [h1]
  intro r hr
  have : r = ⟨make_fingerprint "https://example.com/a?utm_source=x" "",
      "https://example.com/a?utm_source=x", "",
      "2024-01-01T00:00:00+00:00"⟩ := by simpa [dbRows] using hr
  subst this
  simp

/-! ## Retry lemmas -/

/-- One unfolding step of the retry loop. -/
theorem retryGo_succ {E R : Type} (attempts : Nat → Except E R) (backoff : ℚ)
    (i rem : Nat) (lastErr : Option E) :
    retryGo attempts backoff i (rem + 1) lastErr =
      match attempts i with
      | Except.ok r => (Except.ok r, i + 1, [])
      | Except.error e =>
        ((retryGo attempts backoff (i + 1) rem (some e)).1,
         (retryGo attempts backoff (i + 1) rem (some e)).2.1,
         (if 0 < rem then [backoff * 2 ^ i] else []) ++
           (retryGo attempts backoff (i + 1) rem (some e)).2.2) := rfl

/-- The retry loop performs at most `remaining` further attempts. -/
theorem retryGo_attempts_le {E R : Type} (attempts : Nat → Except E R)
    (backoff : ℚ) :
    ∀ (remaining i : Nat) (lastErr : Option E),
      (retryGo attempts backoff i remaining lastErr).2.1 ≤ i + remaining := by
  intro remaining
  induction remaining with
  | zero => intro i lastErr; simp [retryGo]
  | succ rem ih =>
    intro i lastErr
    cases hA : attempts i with
    | ok r => rw [retryGo_succ, hA]; dsimp only; omega
    | error e =>
      have hrec := ih (i + 1) (some e)
      rw [retryGo_succ, hA]
      dsimp only
      omega

/-- If the first `k` attempts from `i` fail and attempt `i + k` succeeds
within the allowance, the loop returns that success after `k + 1` attempts,
having slept `backoff * 2^(i+j)` after each failed attempt `i + j`. -/
theorem retryGo_success {E R : Type} (attempts : Nat → Except E R)
    (backoff : ℚ) (e : Nat → E) (r : R) :
    ∀ (k i remaining : Nat) (lastErr : Option E),
      k < remaining →
      (∀ j, j < k → attempts (i + j) = Except.error (e (i + j))) →
      attempts (i + k) = Except.ok r →
      retryGo attempts backoff i remaining lastErr =
        (Except.ok r, i + k + 1,
          (List.range k).map (fun j => backoff * 2 ^ (i + j))) := by
  intro k
  induction k with
  | zero =>
    intro i remaining lastErr hk _ hok
    obtain ⟨rem, rfl⟩ := Nat.exists_eq_succ_of_ne_zero (Nat.pos_iff_ne_zero.mp hk)
    simp only [retryGo]
    rw [show i + 0 = i from rfl] at hok
    rw [hok]
    simp
  | succ k ih =>
    intro i remaining lastErr hk hfail hok
    obtain ⟨rem, rfl⟩ : ∃ rem, remaining = rem + 1 :=
      ⟨remaining - 1, by omega⟩
    have h0 : attempts i = Except.error (e i) := by
      simpa using hfail 0 (Nat.succ_pos k)
    have hrec := ih (i + 1) rem (some (e i)) (by omega)
      (fun j hj => by
        have := hfail (j + 1) (by omega)
        simpa [Nat.add_assoc, Nat.add_comm 1 j] using this)
      (by simpa [Nat.add_assoc, Nat.add_comm 1 k] using hok)
    have hrem : 0 < rem := by omega
    rw [retryGo_succ, h0]
    dsimp only
    rw [hrec, if_pos hrem]
    dsimp only
    refine congrArg₂ Prod.mk rfl (congrArg₂ Prod.mk (by omega) ?_)
    show [backoff * 2 ^ i] ++ (List.range k).map (fun j => backoff * 2 ^ (i + 1 + j)) =
      (List.range (k + 1)).map (fun j => backoff * 2 ^ (i + j))
    rw [List.singleton_append, List.range_succ_eq_map, List.map_cons, List.map_map]
    refine congrArg₂ _ (by rw [Nat.add_zero]) ?_
    refine List.map_congr_left (fun j _ => ?_)
    show backoff * 2 ^ (i + 1 + j) = backoff * 2 ^ (i + (j + 1))
    exact congrArg (fun n => backoff * 2 ^ n) (by omega)

/-- If every attempt in the allowance fails, the loop surfaces the error of
the last attempt after exactly `remaining` attempts, having slept after all
but the last. -/
theorem retryGo_allfail {E R : Type} (attempts : Nat → Except E R)
    (backoff : ℚ) (e : Nat → E) :
    ∀ (remaining i : Nat) (lastErr : Option E),
      (∀ j, j < remaining → attempts (i + j) = Except.error (e (i + j))) →
      retryGo attempts backoff i remaining lastErr =
        (Except.error (match remaining with
            | 0 => lastErr
            | _ + 1 => some (e (i + remaining - 1))),
          i + remaining,
          (List.range (remaining - 1)).map (fun j => backoff * 2 ^ (i + j))) := by
  intro remaining
  induction remaining with
  | zero => intro i lastErr _; simp [retryGo]
  | succ rem ih =>
    intro i lastErr hfail
    have h0 : attempts i = Except.error (e i) := by
      simpa using hfail 0 (Nat.succ_pos rem)
    have hrec := ih (i + 1) (some (e i)) (fun j hj => by
      have := hfail (j + 1) (by omega)
      simpa [Nat.add_assoc, Nat.add_comm 1 j] using this)
    cases rem with
    | zero =>
      rw [retryGo_succ, h0]
      dsimp only
      rw [hrec]
      simp
    | succ m =>
      have hrem : 0 < m + 1 := Nat.succ_pos m
      rw [retryGo_succ, h0]
      dsimp only
      rw [hrec, if_pos hrem]
      dsimp only
      refine congrArg₂ Prod.mk ?_ (congrArg₂ Prod.mk (by omega) ?_)
      · show Except.error (some (e (i + 1 + (m + 1) - 1))) =
          Except.error (some (e (i + (m + 1 + 1) - 1)))
        exact congrArg (fun n => Except.error (some (e n))) (by omega)
      · show [backoff * 2 ^ i] ++
            (List.range (m + 1 - 1)).map (fun j => backoff * 2 ^ (i + 1 + j)) =
          (List.range (m + 1 + 1 - 1)).map (fun j => backoff * 2 ^ (i + j))
        rw [List.singleton_append, show m + 1 - 1 = m from rfl,
          show m + 1 + 1 - 1 = m + 1 from rfl,
          List.range_succ_eq_map, List.map_cons, List.map_map]
        refine congrArg₂ _ (by rw [Nat.add_zero]) ?_
        refine List.map_congr_left (fun j _ => ?_)
        show backoff * 2 ^ (i + 1 + j) = backoff * 2 ^ (i + (j + 1))
        exact congrArg (fun n => backoff * 2 ^ n) (by omega)

/-- C8: each request is attempted at most `max_tries` times; when the first
`k` attempts fail on transport and attempt `k` succeeds, the call returns
that single success after exactly `k + 1` attempts — so a sink failing twice
and succeeding on the third try yields exactly one successful delivery —
with exponential back-off sleeps `backoff * 2^j` after each failed attempt
but the last; and when every attempt fails, the last error is raised rather
than swallowed. -/
theorem c8_request_retry {E R : Type} (attempts : Nat → Except E R)
    (maxTries : Nat) (backoff : ℚ) (e : Nat → E) (r : R) (k : Nat) :
    ((request_with_retry attempts maxTries backoff).2.1 ≤ maxTries) ∧
    (k < maxTries → (∀ j, j < k → attempts j = Except.error (e j)) →
      attempts k = Except.ok r →
      request_with_retry attempts maxTries backoff =
        (Except.ok r, k + 1, (List.range k).map (fun j => backoff * 2 ^ j))) ∧
    (0 < maxTries → (∀ j, j < maxTries → attempts j = Except.error (e j)) →
      request_with_retry attempts maxTries backoff =
        (Except.error (some (e (maxTries - 1))), maxTries,
          (List.range (maxTries - 1)).map (fun j => backoff * 2 ^ j))) := by
  refine ⟨?_, ?_, ?_⟩
  · simpa using retryGo_attempts_le attempts backoff maxTries 0 none
  · intro hk hfail hok
    have := retryGo_success attempts backoff e r k 0 maxTries none hk
      (by simpa using hfail) (by simpa using hok)
    simpa [request_with_retry] using this
  · intro hpos hfail
    have := retryGo_allfail attempts backoff e maxTries 0 none
      (by simpa using hfail)
    obtain ⟨m, rfl⟩ : ∃ m, maxTries = m + 1 := ⟨maxTries - 1, by omega⟩
    simpa [request_with_retry] using this

/-- Witness for `c8_request_retry`: the spec's scenario — a sink failing on
transport twice and succeeding on the third of three allowed attempts —
yields exactly one successful delivery after three attempts, with sleeps
1.5 and 3 seconds. -/
theorem c8_request_retry_witness :
    ((request_with_retry
        (fun i => if i < 2 then Except.error "transport" else Except.ok "delivered")
        3 (3 / 2)).2.1 ≤ 3) ∧
    (request_with_retry
        (fun i => if i < 2 then Except.error "transport" else Except.ok "delivered")
        3 (3 / 2) =
      (Except.ok "delivered", 3, [3 / 2 * 2 ^ 0, 3 / 2 * 2 ^ 1])) := by
  have h := c8_request_retry
    (fun i => if i < 2 then Except.error "transport" else Except.ok "delivered")
    3 (3 / 2) (fun _ => "transport") "delivered" 2
  refine ⟨h.1, ?_⟩
  have h2 := h.2.1 (by decide) (fun j hj => by interval_cases j <;> rfl) (by rfl)
  rw [h2]
  rfl

/-! ## Batching lemmas -/

/-- The batching loop emits batches whose concatenation is the pending batch
followed by the remaining updates, in order. -/
theorem sendBatchesGo_flatten (maxB : Nat) :
    ∀ (l batch : List Item),
      (sendBatchesGo maxB l batch).flatten = batch ++ l := by
  intro l
  induction l with
  | nil =>
    intro batch
    by_cases h : batch.isEmpty
    · simp [sendBatchesGo, h, List.isEmpty_iff.mp h]
    · simp [sendBatchesGo, h]
  | cons it rest ih =>
    intro batch
    simp only [sendBatchesGo]
    by_cases h : maxB ≤ (batch ++ [it]).length
    · rw [if_pos h]
      simp [ih]
    · rw [if_neg h, ih]
      simp

/-- Every batch the loop emits is non-empty and within the size bound,
provided the pending batch is strictly below it. -/
theorem sendBatchesGo_sizes (maxB : Nat) :
    ∀ (l batch : List Item), batch.length < maxB →
      ∀ b ∈ sendBatchesGo maxB l batch, 1 ≤ b.length ∧ b.length ≤ maxB := by
  intro l
  induction l with
  | nil =>
    intro batch hlt b hb
    by_cases h : batch.isEmpty
    · simp [sendBatchesGo, h] at hb
    · simp only [sendBatchesGo, h, Bool.false_eq_true, if_false,
        List.mem_singleton] at hb
      subst hb
      refine ⟨?_, by omega⟩
      cases hempty : b with
      | nil => rw [hempty] at h; simp at h
      | cons x xs => simp [hempty]
  | cons it rest ih =>
    intro batch hlt b hb
    simp only [sendBatchesGo] at hb
    by_cases h : maxB ≤ (batch ++ [it]).length
    · rw [if_pos h] at hb
      rcases List.mem_cons.mp hb with rfl | hb2
      · refine ⟨by simp, ?_⟩
        simp only [List.length_append, List.length_cons, List.length_nil]
        omega
      · exact ih [] (by simp; omega) b hb2
    · rw [if_neg h] at hb
      refine ih (batch ++ [it]) ?_ b hb
      simp only [List.length_append, List.length_cons, List.length_nil] at h ⊢
      omega

set_option maxRecDepth 8192 in
/-- C9: the dispatcher splits the delivery list into groups that
concatenate back to the list (order preserved) and, for a positive batch
size, are all non-empty and at most that size; and with the configured
batch size 1 over three eligible items already in descending-timestamp
order, exactly three sink send calls occur, each consisting of exactly that
one item's rendering, in the same descending order. -/
theorem c9_batch_dispatch :
    (∀ (updates : List Item) (maxB : Nat),
      (sendBatches maxB updates).flatten = updates) ∧
    (∀ (updates : List Item) (maxB : Nat), 1 ≤ maxB →
      ∀ b ∈ sendBatches maxB updates, 1 ≤ b.length ∧ b.length ≤ maxB) ∧
    sortItems [itemX, itemY, itemZ] = [itemX, itemY, itemZ] ∧
    sinkSends [itemX, itemY, itemZ] =
      [renderBatch [itemX], renderBatch [itemY], renderBatch [itemZ]] := by
  refine ⟨?_, ?_, ?_, ?_⟩
  · intro updates maxB
    by_cases h : updates.isEmpty
    · simp [sendBatches, h, List.isEmpty_iff.mp h]
    · simp [sendBatches, h, sendBatchesGo_flatten]
  · intro updates maxB hpos b hb
    by_cases h : updates.isEmpty
    · simp [sendBatches, h] at hb
    · simp only [sendBatches, h, Bool.false_eq_true, if_false] at hb
      exact sendBatchesGo_sizes maxB updates [] (by simpa using hpos) b hb
  · exact List.mergeSort_of_sorted (by decide)
  · decide

/-- Witness for `c9_batch_dispatch` at batch size 1 and the three concrete
items. -/
theorem c9_batch_dispatch_witness :
    (sendBatches 1 [itemX, itemY, itemZ]).flatten = [itemX, itemY, itemZ] ∧
    (∀ b ∈ sendBatches 1 [itemX, itemY, itemZ],
      1 ≤ b.length ∧ b.length ≤ 1) :=
  ⟨c9_batch_dispatch.1 [itemX, itemY, itemZ] 1,
   c9_batch_dispatch.2.1 [itemX, itemY, itemZ] 1 (by decide)⟩

/-! ## Run-loop lemmas -/

/-- Complete characterisation of the classification/gate fold: each counter
counts its classification, the `seen`/`new` split covers the eligible items,
and the delivered items are an in-order selection (sublist) of eligible
inputs appended to the initially pending ones. -/
theorem runFilter_spec (cutoff : Int) (nowIso : String) :
    ∀ (items : List Item) (st : RunAcc),
      ((items.foldl (processItem cutoff nowIso) st).no_date =
        st.no_date + items.countP (fun it => classify cutoff it == Outcome.no_date)) ∧
      ((items.foldl (processItem cutoff nowIso) st).too_old =
        st.too_old + items.countP (fun it => classify cutoff it == Outcome.too_old)) ∧
      ((items.foldl (processItem cutoff nowIso) st).seen_skip +
          (items.foldl (processItem cutoff nowIso) st).new_items.length =
        st.seen_skip + st.new_items.length +
          items.countP (fun it => classify cutoff it == Outcome.eligible)) ∧
      (∃ l, (items.foldl (processItem cutoff nowIso) st).new_items =
          st.new_items ++ l ∧ l.Sublist items ∧
          ∀ it ∈ l, classify cutoff it = Outcome.eligible) := by
  intro items
  induction items with
  | nil =>
    intro st
    exact ⟨by simp, by simp, by simp, [], by simp, List.nil_sublist _,
      fun it h => absurd h (List.not_mem_nil it)⟩
  | cons it rest ih =>
    intro st
    simp only [List.foldl_cons]
    cases hpub : it.published_utc with
    | none =>
      have hcl : classify cutoff it = Outcome.no_date := by
        simp [classify, hpub]
      have hstep : processItem cutoff nowIso st it =
          { st with no_date := st.no_date + 1 } := by
        simp [processItem, hpub]
      rw [hstep]
      obtain ⟨h1, h2, h3, l, hl, hsub, hel⟩ := ih { st with no_date := st.no_date + 1 }
      refine ⟨?_, ?_, ?_, l, hl, hsub.cons it, hel⟩
      · rw [h1]; simp [List.countP_cons, hcl]; omega
      · rw [h2]; simp [List.countP_cons, hcl]
      · rw [h3]; simp [List.countP_cons, hcl]
    | some p =>
      by_cases hlt : p < cutoff
      · have hcl : classify cutoff it = Outcome.too_old := by
          simp [classify, hpub, hlt]
        have hstep : processItem cutoff nowIso st it =
            { st with too_old := st.too_old + 1 } := by
          simp [processItem, hpub, hlt]
        rw [hstep]
        obtain ⟨h1, h2, h3, l, hl, hsub, hel⟩ := ih { st with too_old := st.too_old + 1 }
        refine ⟨?_, ?_, ?_, l, hl, hsub.cons it, hel⟩
        · rw [h1]; simp [List.countP_cons, hcl]
        · rw [h2]; simp [List.countP_cons, hcl]; omega
        · rw [h3]; simp [List.countP_cons, hcl]
      · have hcl : classify cutoff it = Outcome.eligible := by
          simp [classify, hpub, hlt]
        by_cases hseen : is_seen st.rows (make_fingerprint it.url it.title)
        · have hstep : processItem cutoff nowIso st it =
              { st with seen_skip := st.seen_skip + 1 } := by
            simp [processItem, hpub, hlt, hseen]
          rw [hstep]
          obtain ⟨h1, h2, h3, l, hl, hsub, hel⟩ :=
            ih { st with seen_skip := st.seen_skip + 1 }
          refine ⟨?_, ?_, ?_, l, hl, hsub.cons it, hel⟩
          · rw [h1]; simp [List.countP_cons, hcl]
          · rw [h2]; simp [List.countP_cons, hcl]
          · rw [h3]; simp [List.countP_cons, hcl]; omega
        · have hstep : processItem cutoff nowIso st it =
              { st with
                rows := mark_seen st.rows (make_fingerprint it.url it.title)
                  it.url it.title nowIso,
                new_items := st.new_items ++ [it] } := by
            simp [processItem, hpub, hlt, hseen]
          rw [hstep]
          obtain ⟨h1, h2, h3, l, hl, hsub, hel⟩ := ih
            { st with
              rows := mark_seen st.rows (make_fingerprint it.url it.title)
                it.url it.title nowIso,
              new_items := st.new_items ++ [it] }
          refine ⟨?_, ?_, ?_, it :: l, ?_, hsub.cons₂ it, ?_⟩
          · rw [h1]; simp [List.countP_cons, hcl]
          · rw [h2]; simp [List.countP_cons, hcl]
          · rw [h3]; simp [List.countP_cons, hcl]; omega
          · rw [hl]; simp
          · intro x hx
            rcases List.mem_cons.mp hx with rfl | hx2
            · exact hcl
            · exact hel x hx2

/-- The four counters of the fold partition the processed list. -/
theorem runFilter_partition (cutoff : Int) (nowIso : String) :
    ∀ (items : List Item) (st : RunAcc),
      (items.foldl (processItem cutoff nowIso) st).no_date +
        (items.foldl (processItem cutoff nowIso) st).too_old +
        (items.foldl (processItem cutoff nowIso) st).seen_skip +
        (items.foldl (processItem cutoff nowIso) st).new_items.length =
      st.no_date + st.too_old + st.seen_skip + st.new_items.length +
        items.length := by
  intro items
  induction items with
  | nil => intro st; simp
  | cons it rest ih =>
    intro st
    simp only [List.foldl_cons, List.length_cons]
    cases hpub : it.published_utc with
    | none =>
      have hstep : processItem cutoff nowIso st it =
          { st with no_date := st.no_date + 1 } := by
        simp [processItem, hpub]
      rw [hstep, ih]
      simp; omega
    | some p =>
      by_cases hlt : p < cutoff
      · have hstep : processItem cutoff nowIso st it =
            { st with too_old := st.too_old + 1 } := by
          simp [processItem, hpub, hlt]
        rw [hstep, ih]
        simp; omega
      · by_cases hseen : is_seen st.rows (make_fingerprint it.url it.title)
        · have hstep : processItem cutoff nowIso st it =
              { st with seen_skip := st.seen_skip + 1 } := by
            simp [processItem, hpub, hlt, hseen]
          rw [hstep, ih]
          simp; omega
        · have hstep : processItem cutoff nowIso st it =
              { st with
                rows := mark_seen st.rows (make_fingerprint it.url it.title)
                  it.url it.title nowIso,
                new_items := st.new_items ++ [it] } := by
            simp [processItem, hpub, hlt, hseen]
          rw [hstep, ih]
          simp; omega

/-- C10: at the end of every run the four reported counters partition the
merged item list — `no_date + too_old + seen_skipped + new` equals the
number of items after the merge, whatever the cutoff, store and fetched
items were. -/
theorem c10_counters_partition (cutoff : Int) (nowIso : String)
    (rows : List SeenRecord) (raw : List Item) :
    (runPipeline cutoff nowIso rows raw).no_date +
      (runPipeline cutoff nowIso rows raw).too_old +
      (runPipeline cutoff nowIso rows raw).seen_skip +
      (runPipeline cutoff nowIso rows raw).new_items.length =
    (mergeItems raw).length := by
  have h := runFilter_partition cutoff nowIso (sortItems (mergeItems raw))
    ⟨rows, [], 0, 0, 0⟩
  simp only [runPipeline, runFilter]
  rw [h]
  simp [sortItems]

/-- The sort comparator is total. -/
theorem pubKeyGe_total (a b : Item) : (pubKeyGe a b || pubKeyGe b a) = true := by
  obtain ⟨s, t, u, p⟩ := a
  obtain ⟨s', t', u', p'⟩ := b
  cases p <;> cases p' <;> simp [pubKeyGe] <;> omega

/-- The sort comparator is transitive. -/
theorem pubKeyGe_trans (a b c : Item) :
    pubKeyGe a b → pubKeyGe b c → pubKeyGe a c := by
  obtain ⟨s, t, u, p⟩ := a
  obtain ⟨s', t', u', p'⟩ := b
  obtain ⟨s'', t'', u'', p''⟩ := c
  cases p <;> cases p' <;> cases p'' <;> simp [pubKeyGe] <;> omega

/-- C5: the age gate classifies every merged item into exactly one of
`no_date` (no timestamp — and such an item is never delivered), `too_old`
(timestamp strictly before the cutoff) and `eligible`; in every run the
counters report exactly those classes, with the eligible class split
between `seen_skipped` and delivered items; only eligible items reach the
seen-store gate and the delivery list; and the delivered items come out in
descending `published_utc` order (newest first). -/
theorem c5_age_classification (cutoff : Int) (nowIso : String)
    (rows : List SeenRecord) (raw : List Item) :
    (∀ it : Item,
      (classify cutoff it = Outcome.no_date ↔ it.published_utc = none) ∧
      (classify cutoff it = Outcome.too_old ↔
        ∃ p, it.published_utc = some p ∧ p < cutoff) ∧
      (classify cutoff it = Outcome.eligible ↔
        ∃ p, it.published_utc = some p ∧ ¬p < cutoff)) ∧
    ((runPipeline cutoff nowIso rows raw).no_date =
      (mergeItems raw).countP (fun it => classify cutoff it == Outcome.no_date)) ∧
    ((runPipeline cutoff nowIso rows raw).too_old =
      (mergeItems raw).countP (fun it => classify cutoff it == Outcome.too_old)) ∧
    ((runPipeline cutoff nowIso rows raw).seen_skip +
        (runPipeline cutoff nowIso rows raw).new_items.length =
      (mergeItems raw).countP (fun it => classify cutoff it == Outcome.eligible)) ∧
    (∀ x ∈ (runPipeline cutoff nowIso rows raw).new_items,
      classify cutoff x = Outcome.eligible) ∧
    (runPipeline cutoff nowIso rows raw).new_items.Pairwise
      (fun a b => pubKeyGe a b = true) := by
  have hperm : (sortItems (mergeItems raw)).Perm (mergeItems raw) :=
    List.mergeSort_perm (mergeItems raw) pubKeyGe
  have hspec := runFilter_spec cutoff nowIso (sortItems (mergeItems raw))
    ⟨rows, [], 0, 0, 0⟩
  obtain ⟨h1, h2, h3, l, hl, hsub, hel⟩ := hspec
  have hsorted : (sortItems (mergeItems raw)).Pairwise
      (fun a b => pubKeyGe a b = true) :=
    List.sorted_mergeSort (fun a b c => pubKeyGe_trans a b c)
      (fun a b => pubKeyGe_total a b) (mergeItems raw)
  have hrp : runPipeline cutoff nowIso rows raw =
      (sortItems (mergeItems raw)).foldl (processItem cutoff nowIso)
        ⟨rows, [], 0, 0, 0⟩ := rfl
  refine ⟨?_, ?_, ?_, ?_, ?_, ?_⟩
  · intro it
    cases hpub : it.published_utc with
    | none =>
      exact ⟨by simp [classify, hpub], by simp [classify, hpub],
        by simp [classify, hpub]⟩
    | some p =>
      by_cases hlt : p < cutoff
      · exact ⟨by simp [classify, hpub, hlt]; try omega,
          by simp [classify, hpub, hlt]; try omega,
          by simp [classify, hpub, hlt]; try omega⟩
      · exact ⟨by simp [classify, hpub, hlt]; try omega,
          by simp [classify, hpub, hlt]; try omega,
          by simp [classify, hpub, hlt]; try omega⟩
  · rw [hrp, h1]
    simp [hperm.countP_eq]
  · rw [hrp, h2]
    simp [hperm.countP_eq]
  · rw [hrp, h3]
    simp [hperm.countP_eq]
  · intro x hx
    rw [hrp, hl] at hx
    simp only [List.nil_append] at hx
    exact hel x hx
  · rw [hrp, hl]
    simp only [List.nil_append]
    exact hsorted.sublist hsub

/-- Witness for `c5_age_classification`: the classification applied through
the theorem at a concrete eligible item, plus the delivery-order conjunct at
a concrete run. -/
theorem c5_age_classification_witness :
    classify 100000 itemX = Outcome.eligible ∧
    (runPipeline 100000 "2025-01-01" [] [itemX]).new_items.Pairwise
      (fun a b => pubKeyGe a b = true) :=
  ⟨((c5_age_classification 100000 "2025-01-01" [] [itemX]).1 itemX).2.2.mpr
      ⟨259200, rfl, by decide⟩,
   (c5_age_classification 100000 "2025-01-01" [] [itemX]).2.2.2.2.2⟩

/-! ## Merge lemmas -/

/-- `pickNewer` returns one of its two arguments. -/
theorem pickNewer_eq_or (a b : Item) : pickNewer a b = a ∨ pickNewer a b = b := by
  obtain ⟨s, t, u, p⟩ := a
  obtain ⟨s', t', u', q⟩ := b
  cases p with
  | none =>
    cases q with
    | none => exact Or.inl rfl
    | some w => exact Or.inr rfl
  | some v =>
    cases q with
    | none => exact Or.inl rfl
    | some w =>
      by_cases h : v < w
      · exact Or.inr (by simp [pickNewer, h])
      · exact Or.inl (by simp [pickNewer, h])

/-- The fold of `pickNewer` stays inside the group. -/
theorem foldl_pickNewer_mem : ∀ (t : List Item) (h : Item),
    t.foldl pickNewer h ∈ h :: t := by
  intro t
  induction t with
  | nil => intro h; simp
  | cons x t ih =>
    intro h
    simp only [List.foldl_cons]
    rcases pickNewer_eq_or h x with hp | hp <;>
      rcases List.mem_cons.mp (ih (pickNewer h x)) with hm | hm <;>
      simp [hp ▸ hm, List.mem_cons, hm] <;> tauto

/-- The in-place update of the `by_fp` list keeps the key list unchanged. -/
theorem mergeStep_update_keys (acc : List (String × Item)) (fp : String)
    (it : Item) :
    (acc.map (fun p => if p.1 == fp then (p.1, pickNewer p.2 it) else p)).map
        Prod.fst = acc.map Prod.fst := by
  rw [List.map_map]
  refine List.map_congr_left (fun p _ => ?_)
  by_cases h : p.1 = fp
  · simp [h]
  · simp [h]

/-- `mergeStep` preserves distinctness of the fingerprint keys. -/
theorem mergeStep_nodup (acc : List (String × Item)) (it : Item)
    (h : (acc.map Prod.fst).Nodup) :
    ((mergeStep acc it).map Prod.fst).Nodup := by
  unfold mergeStep
  by_cases hu : usable it
  · simp only [hu, if_pos]
    by_cases hany : acc.any (fun p => p.1 == fpOf it)
    · rw [if_pos hany, mergeStep_update_keys]
      exact h
    · rw [if_neg hany]
      rw [List.map_append]
      simp only [List.map_cons, List.map_nil]
      rw [List.nodup_append]
      refine ⟨h, List.nodup_singleton _, ?_⟩
      intro k hk1 hk2
      simp only [List.mem_singleton] at hk2
      subst hk2
      obtain ⟨p, hp, hpk⟩ := List.mem_map.mp hk1
      simp only [List.any_eq_true, not_exists, not_and] at hany
      exact hany p hp (by simp [hpk])
  · simp only [hu, Bool.false_eq_true, if_false]
    exact h

/-- The dict semantics of one merge step: for the stepped item's own
fingerprint the entry becomes the tie-break of the old value and the item
(or the item itself when absent); every other fingerprint is untouched;
unusable items change nothing. -/
theorem lookupFp_mergeStep (acc : List (String × Item)) (it : Item)
    (fp : String) :
    lookupFp (mergeStep acc it) fp =
      if usable it ∧ fpOf it = fp then
        match lookupFp acc fp with
        | none => some it
        | some v => some (pickNewer v it)
      else lookupFp acc fp := by
  unfold mergeStep
  by_cases hu : usable it
  · simp only [hu, if_pos]
    by_cases hany : acc.any (fun p => p.1 == fpOf it)
    · rw [if_pos hany]
      have hkey : ∀ p : String × Item,
          ((if p.1 == fpOf it then (p.1, pickNewer p.2 it) else p).1 == fp) =
            (p.1 == fp) := by
        intro p
        by_cases h : p.1 = fpOf it
        · simp [h]
        · simp [h]
      unfold lookupFp
      rw [List.find?_map]
      have hcong : (acc.find?
          ((fun p : String × Item => p.1 == fp) ∘
            (fun p => if p.1 == fpOf it then (p.1, pickNewer p.2 it) else p))) =
          acc.find? (fun p => p.1 == fp) := by
        refine congrArg (fun q => acc.find? q) (funext (fun p => hkey p))
      rw [hcong]
      cases hfound : acc.find? (fun p : String × Item => p.1 == fp) with
      | none =>
        by_cases hfp : fpOf it = fp
        · rw [List.find?_eq_none] at hfound
          rw [List.any_eq_true] at hany
          obtain ⟨p, hp, hpk⟩ := hany
          exact absurd (by simpa [hfp] using hpk) (by simpa using hfound p hp)
        · simp [hu, hfp]
      | some a =>
        have ha : (a.1 == fp) = true :=
          List.find?_some (p := fun q : String × Item => q.1 == fp) hfound
        have ha' : a.1 = fp := by simpa using ha
        by_cases hfp : fpOf it = fp
        · have hkey2 : (a.1 == fpOf it) = true := by
            simp [ha', hfp]
          simp [hu, hfp, hkey2, ha']
        · have hne : fp ≠ fpOf it := fun hc => hfp hc.symm
          have hkey2 : (a.1 == fpOf it) = false := by
            simp only [ha', beq_eq_false_iff_ne, ne_eq]
            exact hne
          simp [hu, hfp, hkey2, ha', hne]
    · rw [if_neg hany]
      unfold lookupFp
      rw [List.find?_append]
      by_cases hfp : fpOf it = fp
      · have hnone : acc.find? (fun p : String × Item => p.1 == fp) = none := by
          rw [List.find?_eq_none]
          intro p hp
          simp only [List.any_eq_true, not_exists, not_and] at hany
          have := hany p hp
          simpa [hfp] using this
        have hfind2 : ([(fpOf it, it)].find?
            (fun p : String × Item => p.1 == fp)) = some (fpOf it, it) := by
          simp [List.find?_cons, hfp]
        rw [hnone, hfind2]
        simp [hu, hfp]
      · cases hfound : acc.find? (fun p : String × Item => p.1 == fp) with
        | none =>
          have hfind2 : ([(fpOf it, it)].find?
              (fun p : String × Item => p.1 == fp)) = none := by
            simp [List.find?_cons, hfp]
          rw [hfind2]
          simp [hu, hfp]
        | some a =>
          simp [hu, hfp]
  · simp [hu]

/-- `mergeAssoc` over an appended item is one `mergeStep` on the previous
dict. -/
theorem mergeAssoc_append (items : List Item) (it : Item) :
    mergeAssoc (items ++ [it]) = mergeStep (mergeAssoc items) it := by
  simp [mergeAssoc, List.foldl_append]

/-- Appending an item extends exactly its own group, and only when usable. -/
theorem groupOf_append (items : List Item) (it : Item) (fp : String) :
    groupOf (items ++ [it]) fp =
      groupOf items fp ++ (if usable it ∧ fpOf it = fp then [it] else []) := by
  unfold groupOf
  rw [List.filter_append, List.filter_append]
  by_cases hu : usable it
  · by_cases hfp : fpOf it = fp
    · simp [hu, hfp]
    · simp [hu, hfp]
  · simp [hu]

/-- The tie-break representative of a group extended on the right. -/
theorem repOf_append (g : List Item) (x : Item) :
    repOf (g ++ [x]) = some (match repOf g with
      | none => x
      | some v => pickNewer v x) := by
  cases g with
  | nil => rfl
  | cons h t => simp [repOf, List.foldl_append]

/-- Characterisation of the within-run merge: the `by_fp` dict has pairwise
distinct fingerprint keys, and the entry of every fingerprint is exactly the
`pickNewer` fold over that fingerprint's group of usable items, in arrival
order. -/
theorem mergeAssoc_char (items : List Item) :
    ((mergeAssoc items).map Prod.fst).Nodup ∧
    ∀ fp, lookupFp (mergeAssoc items) fp = repOf (groupOf items fp) := by
  induction items using List.reverseRecOn with
  | nil =>
    exact ⟨by simp [mergeAssoc],
      fun fp => by simp [mergeAssoc, lookupFp, groupOf, repOf]⟩
  | append_singleton l it ih =>
    obtain ⟨hnd, hlook⟩ := ih
    rw [mergeAssoc_append]
    refine ⟨mergeStep_nodup _ _ hnd, fun fp => ?_⟩
    rw [lookupFp_mergeStep, groupOf_append, hlook fp]
    by_cases hc : usable it ∧ fpOf it = fp
    · rw [if_pos hc, if_pos hc, repOf_append]
      cases repOf (groupOf l fp) <;> rfl
    · rw [if_neg hc, if_neg hc, List.append_nil]

/-- On an association list with distinct keys, membership determines the
lookup. -/
theorem lookup_of_mem_nodup (acc : List (String × Item))
    (h : (acc.map Prod.fst).Nodup) (p : String × Item) (hp : p ∈ acc) :
    lookupFp acc p.1 = some p.2 := by
  induction acc with
  | nil => cases hp
  | cons q rest ih =>
    simp only [List.map_cons, List.nodup_cons] at h
    rcases List.mem_cons.mp hp with rfl | hp2
    · unfold lookupFp
      rw [List.find?_cons]
      simp
    · by_cases hq : q.1 = p.1
      · exfalso
        exact h.1 (hq ▸ List.mem_map.mpr ⟨p, hp2, rfl⟩)
      · unfold lookupFp
        rw [List.find?_cons]
        have : (q.1 == p.1) = false := by
          simpa using hq
        rw [this]
        exact ih h.2 hp2

/-- Every merged item is usable: the items with both URL and title empty
were dropped before grouping. -/
theorem mergeItems_usable (items : List Item) :
    ∀ x ∈ mergeItems items, usable x = true := by
  intro x hx
  obtain ⟨p, hp, rfl⟩ := List.mem_map.mp hx
  have hnd := (mergeAssoc_char items).1
  have hlk := lookup_of_mem_nodup _ hnd p hp
  rw [(mergeAssoc_char items).2 p.1] at hlk
  cases hg : groupOf items p.1 with
  | nil => rw [hg] at hlk; cases hlk
  | cons h t =>
    rw [hg] at hlk
    have hval : t.foldl pickNewer h = p.2 := by
      simpa [repOf] using hlk
    have hmem : p.2 ∈ groupOf items p.1 := by
      rw [hg, ← hval]
      exact foldl_pickNewer_mem t h
    unfold groupOf at hmem
    exact (List.mem_filter.mp (List.mem_filter.mp hmem).1).2

/-- C4: the within-run merge keeps exactly one representative per
fingerprint — the dict keys are pairwise distinct and the entry of each
fingerprint is the fold of the tie-break over that fingerprint's group, in
arrival order (so the first item is kept unless a candidate wins) — items
with both URL and title empty are dropped before grouping, and the
tie-break itself prefers a dated candidate over an undated representative,
prefers the strictly more recent of two dated items (keeping the existing
one on ties), and otherwise keeps the existing representative. -/
theorem c4_merge_tiebreak (items : List Item) (fp : String) :
    ((mergeAssoc items).map Prod.fst).Nodup ∧
    lookupFp (mergeAssoc items) fp = repOf (groupOf items fp) ∧
    (∀ x ∈ mergeItems items, usable x = true) ∧
    (∀ oldIt cand : Item,
      (oldIt.published_utc = none → (∃ q, cand.published_utc = some q) →
        pickNewer oldIt cand = cand) ∧
      (∀ p q, oldIt.published_utc = some p → cand.published_utc = some q →
        pickNewer oldIt cand = (if p < q then cand else oldIt)) ∧
      (cand.published_utc = none → pickNewer oldIt cand = oldIt)) := by
  refine ⟨(mergeAssoc_char items).1, (mergeAssoc_char items).2 fp,
    mergeItems_usable items, ?_⟩
  intro oldIt cand
  refine ⟨?_, ?_, ?_⟩
  · intro h1 ⟨q, h2⟩
    simp [pickNewer, h1, h2]
  · intro p q h1 h2
    simp [pickNewer, h1, h2]
  · intro h2
    cases h1 : oldIt.published_utc <;> simp [pickNewer, h1, h2]

/-- Witness for `c4_merge_tiebreak`: a concrete usable merged item and two
concrete tie-break resolutions through the theorem. -/
theorem c4_merge_tiebreak_witness :
    usable itemX = true ∧ pickNewer itemX itemY = itemX := by
  have h := c4_merge_tiebreak [itemX] (fpOf itemX)
  refine ⟨h.2.2.1 itemX (by decide), ?_⟩
  have h4 := (h.2.2.2 itemX itemY).2.1 259200 172800 rfl rfl
  rw [h4]
  decide

/-! ## Character and whitespace lemmas -/

/-- `Char.ofNat` below the surrogate range round-trips. -/
theorem toNat_ofNat_lt (n : Nat) (h : n < 55296) : (Char.ofNat n).toNat = n := by
  have hv : n.isValidChar := Or.inl h
  simp [Char.ofNat, hv, Char.ofNatAux, Char.toNat, UInt32.toNat,
    BitVec.toNat_ofNatLt]

/-- ASCII lowering does not change whitespace-ness. -/
theorem isPyWs_pyLowerChar (c : Char) : isPyWs (pyLowerChar c) = isPyWs c := by
  unfold pyLowerChar
  by_cases h : 65 ≤ c.toNat ∧ c.toNat ≤ 90
  · rw [if_pos h]
    have h32 : (Char.ofNat (c.toNat + 32)).toNat = c.toNat + 32 :=
      toNat_ofNat_lt _ (by omega)
    have hl : isPyWs (Char.ofNat (c.toNat + 32)) = false := by
      simp [isPyWs, h32]
      omega
    have hr : isPyWs c = false := by
      simp [isPyWs]
      omega
    rw [hl, hr]
  · rw [if_neg h]

/-- ASCII lowering is idempotent. -/
theorem pyLowerChar_idem (c : Char) :
    pyLowerChar (pyLowerChar c) = pyLowerChar c := by
  unfold pyLowerChar
  by_cases h : 65 ≤ c.toNat ∧ c.toNat ≤ 90
  · rw [if_pos h]
    have h32 : (Char.ofNat (c.toNat + 32)).toNat = c.toNat + 32 :=
      toNat_ofNat_lt _ (by omega)
    rw [if_neg (by omega)]
  · rw [if_neg h, if_neg h]

/-- `dropWhile isPyWs` commutes with ASCII lowering. -/
theorem dropWhile_map_pyLower (l : List Char) :
    (l.map pyLowerChar).dropWhile isPyWs =
      (l.dropWhile isPyWs).map pyLowerChar := by
  induction l with
  | nil => rfl
  | cons c rest ih =>
    simp only [List.map_cons, List.dropWhile_cons, isPyWs_pyLowerChar]
    by_cases h : isPyWs c
    · simp [h, ih]
    · simp [h]

/-- `str.strip` commutes with ASCII lowering. -/
theorem stripList_map_pyLower (l : List Char) :
    stripList (l.map pyLowerChar) = (stripList l).map pyLowerChar := by
  unfold stripList
  rw [dropWhile_map_pyLower, ← List.map_reverse, dropWhile_map_pyLower,
    ← List.map_reverse]

/-- A character emitted by the collapse machine is the plain space or comes
from the input. -/
theorem collapseWsAux_mem (l : List Char) :
    ∀ (b : Bool) (c : Char), c ∈ collapseWsAux l b →
      c = Char.ofNat 32 ∨ c ∈ l := by
  induction l with
  | nil => intro b c hc; cases hc
  | cons d rest ih =>
    intro b c hc
    unfold collapseWsAux at hc
    by_cases hws : isPyWs d
    · rw [if_pos hws] at hc
      cases b with
      | true =>
        simp only [if_pos] at hc
        rcases ih true c hc with h | h
        · exact Or.inl h
        · exact Or.inr (List.mem_cons_of_mem d h)
      | false =>
        simp only [Bool.false_eq_true, if_false] at hc
        rcases List.mem_cons.mp hc with rfl | hc2
        · exact Or.inl rfl
        · rcases ih true c hc2 with h | h
          · exact Or.inl h
          · exact Or.inr (List.mem_cons_of_mem d h)
    · rw [if_neg hws] at hc
      rcases List.mem_cons.mp hc with rfl | hc2
      · exact Or.inr (List.mem_cons_self c rest)
      · rcases ih false c hc2 with h | h
        · exact Or.inl h
        · exact Or.inr (List.mem_cons_of_mem d h)

/-- The first element surviving `dropWhile p` does not satisfy `p`. -/
theorem head?_dropWhile_false {α} (p : α → Bool) (l : List α) :
    ∀ c, (l.dropWhile p).head? = some c → p c = false := by
  induction l with
  | nil => intro c hc; cases hc
  | cons d rest ih =>
    intro c hc
    rw [List.dropWhile_cons] at hc
    by_cases h : p d
    · rw [if_pos h] at hc
      exact ih c hc
    · rw [if_neg h] at hc
      simp only [List.head?_cons, Option.some_inj] at hc
      subst hc
      simpa using h

/-- The last element of a `str.strip` result is not whitespace. -/
theorem stripList_getLast (l : List Char) :
    ∀ c, (stripList l).getLast? = some c → isPyWs c = false := by
  intro c hc
  unfold stripList at hc
  rw [List.getLast?_reverse] at hc
  exact head?_dropWhile_false isPyWs _ c hc

/-- The first element of a `str.strip` result is not whitespace. -/
theorem stripList_head (l : List Char) :
    ∀ c, (stripList l).head? = some c → isPyWs c = false := by
  intro c hc
  unfold stripList at hc
  have hpre : ((l.dropWhile isPyWs).reverse.dropWhile isPyWs).reverse <+:
      l.dropWhile isPyWs := by
    have h1 : ((l.dropWhile isPyWs).reverse.dropWhile isPyWs) <:+
        (l.dropWhile isPyWs).reverse := List.dropWhile_suffix isPyWs
    have h2 := h1.reverse
    rwa [List.reverse_reverse] at h2
  obtain ⟨t, ht⟩ := hpre
  have hh : (l.dropWhile isPyWs).head? = some c := by
    rw [← ht, List.head?_append, hc]
    rfl
  exact head?_dropWhile_false isPyWs l c hh

/-- The last emitted character is well behaved: on inputs whose final
character is not whitespace, the collapse machine emits a whitespace-tidy
stream, in either machine state (for a non-empty input when the flag is
set). -/
theorem collapseWsAux_wsTidy (l : List Char) :
    ((∀ c, l.getLast? = some c → isPyWs c = false) →
      wsTidyAux (collapseWsAux l false) false = true) ∧
    (l ≠ [] → (∀ c, l.getLast? = some c → isPyWs c = false) →
      wsTidyAux (collapseWsAux l true) true = true) := by
  have hsp : isPyWs (Char.ofNat 32) = true := by decide
  have hsp2 : ((Char.ofNat 32).toNat == 32) = true := by decide
  induction l with
  | nil => exact ⟨fun _ => rfl, fun h => absurd rfl h⟩
  | cons c rest ih =>
    constructor
    · intro hlast
      by_cases hws : isPyWs c
      · cases rest with
        | nil =>
          have := hlast c (by simp)
          rw [this] at hws
          cases hws
        | cons e r =>
          have hlast2 : ∀ d, (e :: r).getLast? = some d → isPyWs d = false :=
            fun d hd => hlast d (by rwa [List.getLast?_cons_cons])
          have h2 := ih.2 (by simp) hlast2
          simp only [collapseWsAux, hws, if_pos, Bool.false_eq_true, if_false]
          simp only [wsTidyAux, hsp, if_pos, hsp2]
          simpa using h2
      · cases rest with
        | nil => simp [collapseWsAux, wsTidyAux, hws]
        | cons e r =>
          have hlast2 : ∀ d, (e :: r).getLast? = some d → isPyWs d = false :=
            fun d hd => hlast d (by rwa [List.getLast?_cons_cons])
          have h1 := ih.1 hlast2
          simp only [collapseWsAux, hws, Bool.false_eq_true, if_false]
          simp only [wsTidyAux, hws, Bool.false_eq_true, if_false]
          exact h1
    · intro _ hlast
      by_cases hws : isPyWs c
      · cases rest with
        | nil =>
          have := hlast c (by simp)
          rw [this] at hws
          cases hws
        | cons e r =>
          have hlast2 : ∀ d, (e :: r).getLast? = some d → isPyWs d = false :=
            fun d hd => hlast d (by rwa [List.getLast?_cons_cons])
          have h2 := ih.2 (by simp) hlast2
          simp only [collapseWsAux, hws, if_pos]
          exact h2
      · cases rest with
        | nil => simp [collapseWsAux, wsTidyAux, hws]
        | cons e r =>
          have hlast2 : ∀ d, (e :: r).getLast? = some d → isPyWs d = false :=
            fun d hd => hlast d (by rwa [List.getLast?_cons_cons])
          have h1 := ih.1 hlast2
          simp only [collapseWsAux, hws, Bool.false_eq_true, if_false]
          simp only [wsTidyAux, hws, Bool.false_eq_true, if_false]
          exact h1

/-- Removing quote glyphs from a glyph-free list is the identity. -/
theorem removeQuotes_id (l : List Char) (h : ∀ c ∈ l, ¬ c ∈ QUOTE_CHARS) :
    removeQuotes l = l := by
  unfold removeQuotes
  refine List.filter_eq_self.mpr (fun c hc => ?_)
  simp [List.contains, h c hc]

/-- A character with a lower-case ASCII code point is not a quote glyph. -/
theorem lower_range_not_quote (c : Char) (h1 : 97 ≤ c.toNat)
    (h2 : c.toNat ≤ 122) : ¬ c ∈ QUOTE_CHARS := by
  intro hmem
  have hv : ∀ d ∈ QUOTE_CHARS, d.toNat = 8220 ∨ d.toNat = 8221 ∨
      d.toNat = 34 ∨ d.toNat = 39 ∨ d.toNat = 8217 := by
    intro d hd
    simp only [QUOTE_CHARS, List.mem_cons, List.not_mem_nil, or_false] at hd
    rcases hd with rfl | rfl | rfl | rfl | rfl
    · exact Or.inl (toNat_ofNat_lt _ (by omega))
    · exact Or.inr (Or.inl (toNat_ofNat_lt _ (by omega)))
    · exact Or.inr (Or.inr (Or.inl (toNat_ofNat_lt _ (by omega))))
    · exact Or.inr (Or.inr (Or.inr (Or.inl (toNat_ofNat_lt _ (by omega)))))
    · exact Or.inr (Or.inr (Or.inr (Or.inr (toNat_ofNat_lt _ (by omega)))))
  have := hv c hmem
  omega

/-- ASCII lowering never produces a quote glyph from a non-glyph. -/
theorem pyLowerChar_not_quote (c : Char) (h : ¬ c ∈ QUOTE_CHARS) :
    ¬ pyLowerChar c ∈ QUOTE_CHARS := by
  unfold pyLowerChar
  by_cases hr : 65 ≤ c.toNat ∧ c.toNat ≤ 90
  · rw [if_pos hr]
    have h32 : (Char.ofNat (c.toNat + 32)).toNat = c.toNat + 32 :=
      toNat_ofNat_lt _ (by omega)
    exact lower_range_not_quote _ (by omega) (by omega)
  · rw [if_neg hr]
    exact h

/-- ASCII lowering never produces an upper-case ASCII letter. -/
theorem pyLowerChar_not_upper (c : Char) :
    ¬ (65 ≤ (pyLowerChar c).toNat ∧ (pyLowerChar c).toNat ≤ 90) := by
  unfold pyLowerChar
  by_cases hr : 65 ≤ c.toNat ∧ c.toNat ≤ 90
  · rw [if_pos hr]
    have h32 : (Char.ofNat (c.toNat + 32)).toNat = c.toNat + 32 :=
      toNat_ofNat_lt _ (by omega)
    omega
  · rw [if_neg hr]
    exact hr

/-- The plain space is neither a quote glyph nor upper case. -/
theorem space_not_quote_upper :
    ¬ Char.ofNat 32 ∈ QUOTE_CHARS ∧
      ¬ (65 ≤ (Char.ofNat 32).toNat ∧ (Char.ofNat 32).toNat ≤ 90) := by
  constructor
  · intro h
    simp only [QUOTE_CHARS, List.mem_cons, List.not_mem_nil, or_false] at h
    rcases h with h | h | h | h | h <;> exact absurd (congrArg Char.toNat h)
      (by simp [toNat_ofNat_lt])
  · simp [toNat_ofNat_lt]

/-- Stripping only removes characters. -/
theorem mem_stripList (l : List Char) : ∀ c ∈ stripList l, c ∈ l := by
  intro c hc
  unfold stripList at hc
  rw [List.mem_reverse] at hc
  have h1 := (List.dropWhile_sublist (l := (l.dropWhile isPyWs).reverse)
    (p := isPyWs)).mem hc
  rw [List.mem_reverse] at h1
  exact (List.dropWhile_sublist (l := l) (p := isPyWs)).mem h1

/-- Every character of a normalized title is outside the stripped quote-glyph
set and is not an upper-case ASCII letter. -/
theorem normalize_title_chars (t : String) :
    ∀ c ∈ (normalize_title t).toList,
      ¬ c ∈ QUOTE_CHARS ∧ ¬ (65 ≤ c.toNat ∧ c.toNat ≤ 90) := by
  intro c hc
  unfold normalize_title at hc
  by_cases ht : t = ""
  · rw [if_pos ht] at hc
    cases hc
  · rw [if_neg ht] at hc
    have hc2 : c ∈ removeQuotes
        (collapseWs ((stripList t.toList).map pyLowerChar)) := hc
    constructor
    · have := (List.mem_filter.mp hc2).2
      simpa [List.contains] using this
    · have hc3 : c ∈ collapseWs ((stripList t.toList).map pyLowerChar) :=
        (List.mem_filter.mp hc2).1
      rcases collapseWsAux_mem _ false c hc3 with rfl | hmem
      · exact space_not_quote_upper.2
      · obtain ⟨d, _, rfl⟩ := List.mem_map.mp hmem
        exact pyLowerChar_not_upper d

/-- `normalize_title` is insensitive to ASCII case: lowering the input first
changes nothing. -/
theorem normalize_title_lower (t : String) :
    normalize_title t = normalize_title ⟨t.toList.map pyLowerChar⟩ := by
  by_cases ht : t = ""
  · subst ht
    rfl
  · have hne : (⟨t.toList.map pyLowerChar⟩ : String) ≠ "" := by
      intro h
      have hdata : t.toList.map pyLowerChar = [] := congrArg String.data h
      rw [List.map_eq_nil_iff] at hdata
      exact ht (by
        cases t with
        | mk d => simpa using congrArg String.mk hdata)
    rw [normalize_title, normalize_title, if_neg ht, if_neg hne]
    have h1 : (⟨t.toList.map pyLowerChar⟩ : String).toList =
        t.toList.map pyLowerChar := rfl
    rw [h1, stripList_map_pyLower, List.map_map]
    have h2 : (stripList t.toList).map (pyLowerChar ∘ pyLowerChar) =
        (stripList t.toList).map pyLowerChar :=
      List.map_congr_left (fun c _ => pyLowerChar_idem c)
    rw [h2]

/-- On inputs free of the stripped quote glyphs, the normalized title is
whitespace-tidy: no leading or trailing whitespace, no whitespace runs, and
every whitespace character is the plain space. -/
theorem normalize_title_wsTidy (t : String)
    (h : ∀ c ∈ t.toList, ¬ c ∈ QUOTE_CHARS) :
    wsTidy (normalize_title t).toList = true := by
  by_cases ht : t = ""
  · subst ht
    rfl
  · rw [normalize_title, if_neg ht]
    have hglyphfree : ∀ c ∈ collapseWs ((stripList t.toList).map pyLowerChar),
        ¬ c ∈ QUOTE_CHARS := by
      intro c hc
      rcases collapseWsAux_mem _ false c hc with rfl | hmem
      · exact space_not_quote_upper.1
      · obtain ⟨d, hd, rfl⟩ := List.mem_map.mp hmem
        exact pyLowerChar_not_quote d (h d (mem_stripList t.toList d hd))
    have htl : (⟨removeQuotes (collapseWs ((stripList t.toList).map
        pyLowerChar))⟩ : String).toList =
        removeQuotes (collapseWs ((stripList t.toList).map pyLowerChar)) := rfl
    rw [htl, removeQuotes_id _ hglyphfree]
    cases hLc : (stripList t.toList).map pyLowerChar with
    | nil => rfl
    | cons c r =>
      have hhead : isPyWs c = false := by
        cases hS : stripList t.toList with
        | nil => rw [hS] at hLc; cases hLc
        | cons d s =>
          rw [hS, List.map_cons] at hLc
          have hcd : c = pyLowerChar d := (List.cons.injEq _ _ _ _ ▸ hLc).1.symm
          rw [hcd, isPyWs_pyLowerChar]
          exact stripList_head t.toList d (by rw [hS]; rfl)
      have hlastr : ∀ d, r.getLast? = some d → isPyWs d = false := by
        intro d hd
        have hLlast : ((stripList t.toList).map pyLowerChar).getLast? =
            some d := by
          rw [hLc]
          cases r with
          | nil => cases hd
          | cons e s => rwa [List.getLast?_cons_cons]
        rw [List.getLast?_map] at hLlast
        cases hS : (stripList t.toList).getLast? with
        | none => rw [hS] at hLlast; cases hLlast
        | some e =>
          rw [hS] at hLlast
          simp at hLlast
          rw [← hLlast, isPyWs_pyLowerChar]
          exact stripList_getLast t.toList e hS
      rw [collapseWs]
      unfold collapseWsAux
      simp only [hhead, Bool.false_eq_true, if_false]
      show wsTidyAux (c :: collapseWsAux r false) true = true
      unfold wsTidyAux
      simp only [hhead, Bool.false_eq_true, if_false]
      exact (collapseWsAux_wsTidy r).1 hlastr

/-- C6 (amended): `normalize_title` yields the empty string on empty input;
its output never contains a character of the stripped set (U+201C, U+201D,
the straight double quote, the straight apostrophe, U+2019 — the left curly
single quote U+2018 is *not* stripped) and never an upper-case ASCII letter;
it is insensitive to ASCII case of its input; and on inputs free of the
stripped glyphs the output is trimmed with every whitespace run collapsed to
one single space. -/
theorem c6_normalize_title_amended :
    normalize_title "" = "" ∧
    (∀ t : String, ∀ c ∈ (normalize_title t).toList,
      ¬ c ∈ QUOTE_CHARS ∧ ¬ (65 ≤ c.toNat ∧ c.toNat ≤ 90)) ∧
    (∀ t : String, normalize_title t = normalize_title ⟨t.toList.map pyLowerChar⟩) ∧
    (∀ t : String, (∀ c ∈ t.toList, ¬ c ∈ QUOTE_CHARS) →
      wsTidy (normalize_title t).toList = true) :=
  ⟨rfl, normalize_title_chars, normalize_title_lower, normalize_title_wsTidy⟩

/-- Witness for `c6_normalize_title_amended` at concrete titles. -/
theorem c6_normalize_title_amended_witness :
    (¬ 'B' ∈ QUOTE_CHARS ∧ ¬ (65 ≤ 'b'.toNat ∧ 'b'.toNat ≤ 90)) ∧
    normalize_title "Foo BAR" = normalize_title ⟨"Foo BAR".toList.map pyLowerChar⟩ ∧
    wsTidy (normalize_title "  Foo   BAR  ").toList = true := by
  refine ⟨?_, c6_normalize_title_amended.2.2.1 "Foo BAR", ?_⟩
  · have h := c6_normalize_title_amended.2.1 "Foo BAR" 'b' (by decide)
    exact ⟨by decide, h.2⟩
  · exact c6_normalize_title_amended.2.2.2 "  Foo   BAR  " (by decide)

/-- C6 (counterexample): the left curly single quote U+2018 survives
`normalize_title`, although the claim says all curly and straight single
quotes are stripped — on the input `‘x’` the right quote is removed but the
left one stays. -/
theorem c6_normalize_title_counterexample :
    normalize_title "‘x’" = "‘x" ∧ normalize_title "‘x’" ≠ "x" := by
  constructor
  · decide
  · decide

/-! ## Percent-coding round-trip lemmas -/

/-- The code-point range of `Char.isAlpha`. -/
theorem isAlpha_toNat (c : Char) (h : c.isAlpha = true) :
    65 ≤ c.toNat ∧ c.toNat ≤ 122 := by
  simp [Char.isAlpha, Char.isUpper, Char.isLower, UInt32.le_def, BitVec.le_def,
    Char.toNat, UInt32.toNat] at h ⊢
  rcases h with ⟨h1, h2⟩ | ⟨h1, h2⟩ <;> exact ⟨by omega, by omega⟩

/-- The code-point range of `Char.isDigit`. -/
theorem isDigit_toNat (c : Char) (h : c.isDigit = true) :
    48 ≤ c.toNat ∧ c.toNat ≤ 57 := by
  simp [Char.isDigit, UInt32.le_def, BitVec.le_def, Char.toNat,
    UInt32.toNat] at h ⊢
  exact ⟨h.1, h.2⟩

/-- Characters are determined by their code points. -/
theorem char_toNat_inj {a b : Char} (h : a.toNat = b.toNat) : a = b :=
  Char.eq_of_val_eq (UInt32.toNat.inj h)

/-- A percent-safe character is printable and none of the separators or
coding characters. -/
theorem isAlwaysSafe_facts (c : Char) (h : isAlwaysSafe c = true) :
    32 < c.toNat ∧ c ≠ '+' ∧ c ≠ '%' ∧ c ≠ '&' ∧ c ≠ '=' ∧ c ≠ '#' ∧
      c ≠ '?' := by
  refine ⟨?_, ?_, ?_, ?_, ?_, ?_, ?_⟩
  · by_cases ha : c.isAlpha = true
    · have := isAlpha_toNat c ha; omega
    · by_cases hd : c.isDigit = true
      · have := isDigit_toNat c hd; omega
      · have hcs : c = Char.ofNat 95 ∨ c = Char.ofNat 46 ∨
            c = Char.ofNat 45 ∨ c = Char.ofNat 126 := by
          simp only [isAlwaysSafe, Bool.or_eq_true, decide_eq_true_eq, ha, hd,
            false_or, or_false] at h
          tauto
        rcases hcs with rfl | rfl | rfl | rfl <;> decide
  all_goals
    intro hEq
    rw [hEq] at h
    exact absurd h (by decide)

/-- A scheme character is printable (above the space). -/
theorem isSchemeChar_toNat (c : Char) (h : isSchemeChar c = true) :
    32 < c.toNat := by
  by_cases ha : c.isAlpha = true
  · have := isAlpha_toNat c ha; omega
  · by_cases hd : c.isDigit = true
    · have := isDigit_toNat c hd; omega
    · have hcs : c = '+' ∨ c = '-' ∨ c = '.' := by
        simp only [isSchemeChar, Bool.or_eq_true, decide_eq_true_eq, ha, hd,
          false_or, or_false] at h
        tauto
      rcases hcs with rfl | rfl | rfl <;> decide

/-- `quote_plus` leaves a string of safe characters unchanged. -/
theorem quotePlus_safe (s : List Char) (h : ∀ c ∈ s, isAlwaysSafe c = true) :
    quotePlus s = s := by
  induction s with
  | nil => rfl
  | cons c rest ih =>
    have hc := h c (List.mem_cons_self c rest)
    show (c :: rest).flatMap _ = c :: rest
    rw [List.flatMap_cons]
    rw [if_pos hc]
    exact congrArg (c :: ·) (ih (fun d hd => h d (List.mem_cons_of_mem c hd)))

/-- The percent scanner is the identity embedding on `%`-free strings. -/
theorem percentScanGo_nopct :
    ∀ (fuel : Nat) (s : List Char), s.length ≤ fuel →
      (∀ c ∈ s, c ≠ '%') → percentScanGo fuel s = s.map Sum.inl := by
  intro fuel
  induction fuel with
  | zero =>
    intro s hlen _
    have hs : s = [] := List.length_eq_zero.mp (Nat.le_zero.mp hlen)
    subst hs
    rfl
  | succ fuel ih =>
    intro s hlen hnp
    cases s with
    | nil => rfl
    | cons c rest =>
      have hc : ¬ c = '%' := hnp c (List.mem_cons_self c rest)
      have hlen2 : rest.length ≤ fuel := by
        simp only [List.length_cons] at hlen
        omega
      show percentScanGo (fuel + 1) (c :: rest) = _
      unfold percentScanGo
      rw [if_neg hc]
      rw [ih rest hlen2 (fun d hd => hnp d (List.mem_cons_of_mem c hd))]
      rfl

/-- The decode pass is the identity on literal-only token streams. -/
theorem unquoteDecodeAux_inl (s : List Char) :
    unquoteDecodeAux (s.map Sum.inl) [] = s := by
  induction s with
  | nil => rfl
  | cons c rest ih =>
    show unquoteDecodeAux (Sum.inl c :: rest.map Sum.inl) [] = c :: rest
    unfold unquoteDecodeAux
    rw [ih]
    rfl

/-- `unquote_plus` leaves a string of safe characters unchanged. -/
theorem unquotePlus_safe (s : List Char)
    (h : ∀ c ∈ s, isAlwaysSafe c = true) : unquotePlus s = s := by
  have hplus : s.map (fun c => if c = '+' then Char.ofNat 32 else c) = s := by
    conv_rhs => rw [← List.map_id s]
    refine List.map_congr_left (fun c hc => ?_)
    rw [if_neg (isAlwaysSafe_facts c (h c hc)).2.1]
    rfl
  unfold unquotePlus pyUnquote percentScan
  rw [hplus]
  rw [percentScanGo_nopct s.length s (Nat.le_refl _)
    (fun c hc => (isAlwaysSafe_facts c (h c hc)).2.2.1)]
  exact unquoteDecodeAux_inl s

/-- `str.split(sep, 1)` on a separator-free string finds nothing. -/
theorem splitFirstAt_not_mem (sep : Char) (l : List Char)
    (h : ∀ c ∈ l, c ≠ sep) : splitFirstAt sep l = (l, none) := by
  induction l with
  | nil => rfl
  | cons c rest ih =>
    unfold splitFirstAt
    rw [if_neg (h c (List.mem_cons_self c rest))]
    rw [ih (fun d hd => h d (List.mem_cons_of_mem c hd))]

/-- `str.split(sep, 1)` cuts at the first separator. -/
theorem splitFirstAt_append (sep : Char) (a b : List Char)
    (h : ∀ c ∈ a, c ≠ sep) :
    splitFirstAt sep (a ++ sep :: b) = (a, some b) := by
  induction a with
  | nil =>
    show splitFirstAt sep (sep :: b) = ([], some b)
    unfold splitFirstAt
    rw [if_pos rfl]
  | cons c rest ih =>
    show splitFirstAt sep (c :: (rest ++ sep :: b)) = _
    unfold splitFirstAt
    rw [if_neg (h c (List.mem_cons_self c rest))]
    rw [ih (fun d hd => h d (List.mem_cons_of_mem c hd))]

/-- `str.split(sep)` on a separator-free string is one segment. -/
theorem splitOnChar_not_mem (sep : Char) (l : List Char)
    (h : ∀ c ∈ l, c ≠ sep) : splitOnChar sep l = [l] := by
  induction l with
  | nil => rfl
  | cons c rest ih =>
    unfold splitOnChar
    rw [ih (fun d hd => h d (List.mem_cons_of_mem c hd))]
    dsimp only
    rw [if_neg (h c (List.mem_cons_self c rest))]

/-- Unfolding equation for `splitOnChar` on a cons cell. -/
theorem splitOnChar_cons (sep c : Char) (rest : List Char) :
    splitOnChar sep (c :: rest) =
      match splitOnChar sep rest with
      | [] => [[]]
      | seg :: segs =>
        if c = sep then [] :: seg :: segs else (c :: seg) :: segs := rfl

/-- `str.split(sep)` always yields at least one segment. -/
theorem splitOnChar_ne_nil (sep : Char) (l : List Char) :
    splitOnChar sep l ≠ [] := by
  cases l with
  | nil => simp [splitOnChar]
  | cons c rest =>
    rw [splitOnChar_cons]
    cases splitOnChar sep rest with
    | nil => simp
    | cons seg segs => by_cases hc : c = sep <;> simp [hc]

/-- `str.split(sep)` peels the first separator-free segment. -/
theorem splitOnChar_append (sep : Char) (a rest : List Char)
    (h : ∀ c ∈ a, c ≠ sep) :
    splitOnChar sep (a ++ sep :: rest) = a :: splitOnChar sep rest := by
  induction a with
  | nil =>
    show splitOnChar sep (sep :: rest) = [] :: splitOnChar sep rest
    rw [splitOnChar_cons]
    cases hs : splitOnChar sep rest with
    | nil => exact absurd hs (splitOnChar_ne_nil sep rest)
    | cons seg segs => simp
  | cons c a' ih =>
    show splitOnChar sep (c :: (a' ++ sep :: rest)) = _
    rw [splitOnChar_cons]
    rw [ih (fun d hd => h d (List.mem_cons_of_mem c hd))]
    dsimp only
    rw [if_neg (h c (List.mem_cons_self c a'))]

/-- Characters of a `name=value` segment built from safe parts are neither
`&` nor can the name contain `=`. -/
theorem parse_qsl_urlencode (pairs : List (List Char × List Char))
    (h : pairsOkB pairs = true) : pyParseQsl (pyUrlencode pairs) = pairs := by
  induction pairs with
  | nil => rfl
  | cons kv rest ih =>
    simp only [pairsOkB, List.all_cons, Bool.and_eq_true] at h
    obtain ⟨⟨hk, hv⟩, hrest⟩ := h
    have hkm : ∀ c ∈ kv.1, isAlwaysSafe c = true := by
      intro c hc; exact (List.all_eq_true.mp hk) c hc
    have hvm : ∀ c ∈ kv.2, isAlwaysSafe c = true := by
      intro c hc; exact (List.all_eq_true.mp hv) c hc
    have hseg : quotePlus kv.1 ++ '=' :: quotePlus kv.2 =
        kv.1 ++ '=' :: kv.2 := by
      rw [quotePlus_safe kv.1 hkm, quotePlus_safe kv.2 hvm]
    have hsegne : ∀ c ∈ kv.1 ++ '=' :: kv.2, c ≠ '&' := by
      intro c hc
      rcases List.mem_append.mp hc with hc1 | hc2
      · exact (isAlwaysSafe_facts c (hkm c hc1)).2.2.2.1
      · rcases List.mem_cons.mp hc2 with rfl | hc3
        · decide
        · exact (isAlwaysSafe_facts c (hvm c hc3)).2.2.2.1
    have hkeyne : ∀ c ∈ kv.1, c ≠ '=' := fun c hc =>
      (isAlwaysSafe_facts c (hkm c hc)).2.2.2.2.1
    have hparse_seg :
        (if (kv.1 ++ '=' :: kv.2).isEmpty then
            (none : Option (List Char × List Char))
          else
            let s := splitFirstAt '=' (kv.1 ++ '=' :: kv.2)
            some (unquotePlus s.1, unquotePlus (s.2.getD []))) =
          some (kv.1, kv.2) := by
      rw [if_neg (by simp)]
      rw [splitFirstAt_append '=' kv.1 kv.2 hkeyne]
      simp only [Option.getD_some]
      rw [unquotePlus_safe kv.1 hkm, unquotePlus_safe kv.2 hvm]
    cases rest with
    | nil =>
      show pyParseQsl (quotePlus kv.1 ++ '=' :: quotePlus kv.2) = [kv]
      rw [hseg]
      unfold pyParseQsl
      rw [if_neg (by simp)]
      rw [splitOnChar_not_mem '&' _ hsegne]
      rw [List.filterMap_cons, List.filterMap_nil]
      simp only [hparse_seg]
    | cons kv2 rest2 =>
      show pyParseQsl ((quotePlus kv.1 ++ '=' :: quotePlus kv.2) ++
        '&' :: pyUrlencode (kv2 :: rest2)) = kv :: kv2 :: rest2
      rw [hseg]
      unfold pyParseQsl
      rw [if_neg (by simp)]
      rw [splitOnChar_append '&' _ _ hsegne]
      rw [List.filterMap_cons]
      simp only [hparse_seg]
      have hih := ih hrest
      unfold pyParseQsl at hih
      by_cases hemp : (pyUrlencode (kv2 :: rest2)).isEmpty
      · exfalso
        unfold pyUrlencode at hemp
        cases rest2 with
        | nil =>
          simp only [List.map_cons, List.map_nil, joinAmp] at hemp
          rw [List.isEmpty_iff] at hemp
          have := congrArg List.length hemp
          simp at this
        | cons kv3 rest3 =>
          simp only [List.map_cons, joinAmp] at hemp
          rw [List.isEmpty_iff] at hemp
          have := congrArg List.length hemp
          simp at this
      · rw [if_neg hemp] at hih
        rw [hih]

/-- A character above code point 32 is not Python whitespace. -/
theorem not_isPyWs_of_gt32 (c : Char) (h : 32 < c.toNat) : isPyWs c = false := by
  simp only [isPyWs, Bool.or_eq_false_iff, beq_eq_false_iff_ne, ne_eq]
  omega

/-- `dropWhile` is the identity when the predicate fails everywhere. -/
theorem dropWhile_all_false (p : Char → Bool) (l : List Char)
    (h : ∀ c ∈ l, p c = false) : l.dropWhile p = l := by
  cases l with
  | nil => rfl
  | cons c rest =>
    exact List.dropWhile_cons_of_neg
      (by simp [h c (List.mem_cons_self c rest)])

/-- `str.strip()` is the identity on a list of printable characters. -/
theorem stripList_of_gt32 (l : List Char) (h : ∀ c ∈ l, 32 < c.toNat) :
    stripList l = l := by
  unfold stripList
  rw [dropWhile_all_false _ _ (fun c hc => not_isPyWs_of_gt32 c (h c hc))]
  rw [dropWhile_all_false _ _
    (fun c hc => not_isPyWs_of_gt32 c (h c (List.mem_reverse.mp hc)))]
  exact List.reverse_reverse l

/-- The tab/CR/LF deletion pass of `urlsplit` is the identity on printable
characters. -/
theorem filter_tcn_of_gt32 (l : List Char) (h : ∀ c ∈ l, 32 < c.toNat) :
    l.filter
      (fun c => !(c = Char.ofNat 9 || c = Char.ofNat 13 || c = Char.ofNat 10))
      = l := by
  refine List.filter_eq_self.mpr (fun c hc => ?_)
  have h32 := h c hc
  have h9 : ¬ c = Char.ofNat 9 := fun he => absurd h32 (by rw [he]; decide)
  have h13 : ¬ c = Char.ofNat 13 := fun he => absurd h32 (by rw [he]; decide)
  have h10 : ¬ c = Char.ofNat 10 := fun he => absurd h32 (by rw [he]; decide)
  simp [h9, h13, h10]

/-- `takeWhile` passes over a block on which the predicate holds. -/
theorem takeWhile_all_append (p : Char → Bool) (a b : List Char)
    (h : ∀ c ∈ a, p c = true) : (a ++ b).takeWhile p = a ++ b.takeWhile p := by
  induction a with
  | nil => rfl
  | cons c a' ih =>
    rw [List.cons_append,
      List.takeWhile_cons_of_pos (h c (List.mem_cons_self c a')),
      ih (fun d hd => h d (List.mem_cons_of_mem c hd))]
    rfl

/-- `takeWhile` yields nothing when the head (if any) fails the predicate. -/
theorem takeWhile_nil_of_head (p : Char → Bool) (l : List Char)
    (h : ∀ c, l.head? = some c → p c = false) : l.takeWhile p = [] := by
  cases l with
  | nil => rfl
  | cons c rest => exact List.takeWhile_cons_of_neg (by simp [h c rfl])

/-- The scheme scanner splits at the `:` following a scheme-character run. -/
theorem schemeSplitGo_append (s : List Char) :
    ∀ (acc r : List Char), s.all isSchemeChar = true →
      schemeSplitGo (s ++ ':' :: r) acc = some (acc.reverse ++ s, r) := by
  induction s with
  | nil =>
    intro acc r _
    show schemeSplitGo (':' :: r) acc = _
    unfold schemeSplitGo
    rw [if_pos rfl]
    simp
  | cons c s' ih =>
    intro acc r hall
    simp only [List.all_cons, Bool.and_eq_true] at hall
    have hc : ¬ c = ':' := fun he => by
      rw [he] at hall
      exact absurd hall.1 (by decide)
    show schemeSplitGo (c :: (s' ++ ':' :: r)) acc = _
    unfold schemeSplitGo
    rw [if_neg hc, if_pos hall.1, ih (c :: acc) r hall.2]
    simp

/-- CPython's scheme detection on a well-formed `scheme:rest` input. -/
theorem splitScheme_append (sch r : List Char) (hs : schemeOkB sch = true) :
    splitScheme (sch ++ ':' :: r) = some (sch, r) := by
  cases sch with
  | nil => simp [schemeOkB] at hs
  | cons c rest =>
    simp only [schemeOkB, Bool.and_eq_true] at hs
    show splitScheme (c :: (rest ++ ':' :: r)) = _
    unfold splitScheme
    dsimp only
    rw [if_pos hs.1, schemeSplitGo_append rest [c] r hs.2]
    simp

/-- What `hostCharOk` guarantees about a host character. -/
theorem hostCharOk_facts (c : Char) (h : hostCharOk c = true) :
    32 < c.toNat ∧ c ≠ '/' ∧ c ≠ '?' ∧ c ≠ '#' := by
  simp only [hostCharOk, Bool.and_eq_true, decide_eq_true_eq,
    Bool.not_eq_true', decide_eq_false_iff_not] at h
  exact ⟨h.1.1.1, h.1.1.2, h.1.2, h.2⟩

/-- What `pathCharOk` guarantees about a path character. -/
theorem pathCharOk_facts (c : Char) (h : pathCharOk c = true) :
    32 < c.toNat ∧ c ≠ '?' ∧ c ≠ '#' := by
  simp only [pathCharOk, Bool.and_eq_true, decide_eq_true_eq,
    Bool.not_eq_true', decide_eq_false_iff_not] at h
  exact ⟨h.1.1, h.1.2, h.2⟩

/-- What `pathOkB` guarantees about a path. -/
theorem pathOkB_facts (path : List Char) (h : pathOkB path = true) :
    (∀ c ∈ path, pathCharOk c = true) ∧
      (path = [] ∨ path.take 1 = ['/']) := by
  cases path with
  | nil => exact ⟨fun c hc => absurd hc (List.not_mem_nil c), Or.inl rfl⟩
  | cons p0 prest =>
    simp only [pathOkB, List.isEmpty_cons, Bool.false_or,
      Bool.and_eq_true, decide_eq_true_eq] at h
    exact ⟨fun c hc => List.all_eq_true.mp h.2 c hc, Or.inr h.1⟩

/-- Every character of a `urlencode` output over safe pairs is `&`, `=` or a
safe character. -/
theorem pyUrlencode_chars (pairs : List (List Char × List Char))
    (h : pairsOkB pairs = true) :
    ∀ c ∈ pyUrlencode pairs, c = '&' ∨ c = '=' ∨ isAlwaysSafe c = true := by
  induction pairs with
  | nil => intro c hc; simp [pyUrlencode, joinAmp] at hc
  | cons kv rest ih =>
    intro c hc
    simp only [pairsOkB, List.all_cons, Bool.and_eq_true] at h
    obtain ⟨⟨hk, hv⟩, hrest⟩ := h
    have hseg : quotePlus kv.1 ++ '=' :: quotePlus kv.2 =
        kv.1 ++ '=' :: kv.2 := by
      rw [quotePlus_safe kv.1 (fun d hd => List.all_eq_true.mp hk d hd),
        quotePlus_safe kv.2 (fun d hd => List.all_eq_true.mp hv d hd)]
    cases rest with
    | nil =>
      have hrepr : pyUrlencode [kv] = kv.1 ++ '=' :: kv.2 := by
        have h0 : pyUrlencode [kv] =
            quotePlus kv.1 ++ '=' :: quotePlus kv.2 := rfl
        rw [h0, hseg]
      rw [hrepr] at hc
      rcases List.mem_append.mp hc with h1 | h2
      · exact Or.inr (Or.inr (List.all_eq_true.mp hk c h1))
      · rcases List.mem_cons.mp h2 with rfl | h3
        · exact Or.inr (Or.inl rfl)
        · exact Or.inr (Or.inr (List.all_eq_true.mp hv c h3))
    | cons kv2 rest2 =>
      have hrepr : pyUrlencode (kv :: kv2 :: rest2) =
          (kv.1 ++ '=' :: kv.2) ++ '&' :: pyUrlencode (kv2 :: rest2) := by
        have h0 : pyUrlencode (kv :: kv2 :: rest2) =
            (quotePlus kv.1 ++ '=' :: quotePlus kv.2) ++
              '&' :: pyUrlencode (kv2 :: rest2) := rfl
        rw [h0, hseg]
      rw [hrepr] at hc
      rcases List.mem_append.mp hc with h1 | h2
      · rcases List.mem_append.mp h1 with ha | hb
        · exact Or.inr (Or.inr (List.all_eq_true.mp hk c ha))
        · rcases List.mem_cons.mp hb with rfl | h3
          · exact Or.inr (Or.inl rfl)
          · exact Or.inr (Or.inr (List.all_eq_true.mp hv c h3))
      · rcases List.mem_cons.mp h2 with rfl | h3
        · exact Or.inl rfl
        · exact ih hrest c h3

/-- What a `urlencode`-output character satisfies: printable and not a URL
structure delimiter. -/
theorem query_char_facts (c : Char)
    (h : c = '&' ∨ c = '=' ∨ isAlwaysSafe c = true) :
    32 < c.toNat ∧ c ≠ '#' ∧ c ≠ '?' := by
  rcases h with rfl | rfl | hs
  · exact ⟨by decide, by decide, by decide⟩
  · exact ⟨by decide, by decide, by decide⟩
  · have hf := isAlwaysSafe_facts c hs
    exact ⟨hf.1, hf.2.2.2.2.2.1, hf.2.2.2.2.2.2⟩

/-- Every character of a plausible scheme is a scheme character. -/
theorem schemeOkB_mem (sch : List Char) (hs : schemeOkB sch = true) :
    ∀ c ∈ sch, isSchemeChar c = true := by
  cases sch with
  | nil => intro c hc; cases hc
  | cons c0 rest =>
    simp only [schemeOkB, Bool.and_eq_true] at hs
    intro c hc
    rcases List.mem_cons.mp hc with rfl | h2
    · simp [isSchemeChar, hs.1]
    · exact List.all_eq_true.mp hs.2 c h2

/-- Scheme characters are printable. -/
theorem schemeOkB_chars (sch : List Char) (hs : schemeOkB sch = true) :
    ∀ c ∈ sch, 32 < c.toNat := by
  cases sch with
  | nil => intro c hc; cases hc
  | cons c0 rest =>
    simp only [schemeOkB, Bool.and_eq_true] at hs
    intro c hc
    rcases List.mem_cons.mp hc with rfl | h2
    · exact isSchemeChar_toNat c (by simp [isSchemeChar, hs.1])
    · exact isSchemeChar_toNat c (List.all_eq_true.mp hs.2 c h2)

/-- A plausible host is non-empty. -/
theorem hostOkB_ne_nil (host : List Char) (hh : hostOkB host = true) :
    host ≠ [] := by
  intro he
  subst he
  simp [hostOkB] at hh

/-- Every character of a plausible host is a plausible host character. -/
theorem hostOkB_chars (host : List Char) (hh : hostOkB host = true) :
    ∀ c ∈ host, hostCharOk c = true := by
  simp only [hostOkB, Bool.and_eq_true] at hh
  exact fun c hc => List.all_eq_true.mp hh.2 c hc

/-- Every character of a well-formed fragment-free `buildUrl` is
printable. -/
theorem buildUrl_chars_gt32 (sch host path query : List Char)
    (hs : schemeOkB sch = true) (hh : hostOkB host = true)
    (hp : pathOkB path = true) (hq : ∀ c ∈ query, 32 < c.toNat) :
    ∀ c ∈ buildUrl sch host path query none, 32 < c.toNat := by
  have hqp : ∀ c ∈ (if query.isEmpty then ([] : List Char)
      else '?' :: query), 32 < c.toNat := by
    intro c hc
    by_cases hqe : query.isEmpty
    · rw [if_pos hqe] at hc; cases hc
    · rw [if_neg hqe] at hc
      rcases List.mem_cons.mp hc with rfl | h2
      · decide
      · exact hq c h2
  have hB : buildUrl sch host path query none =
      sch ++ ':' :: ('/' :: '/' :: (host ++ (path ++
        (if query.isEmpty then [] else '?' :: query)))) := by
    simp [buildUrl]
  rw [hB]
  intro c hc
  rcases List.mem_append.mp hc with h1 | h2
  · exact schemeOkB_chars sch hs c h1
  rcases List.mem_cons.mp h2 with rfl | h3
  · decide
  rcases List.mem_cons.mp h3 with rfl | h4
  · decide
  rcases List.mem_cons.mp h4 with rfl | h5
  · decide
  rcases List.mem_append.mp h5 with h6 | h7
  · exact (hostCharOk_facts c (hostOkB_chars host hh c h6)).1
  rcases List.mem_append.mp h7 with h8 | h9
  · exact (pathCharOk_facts c ((pathOkB_facts path hp).1 c h8)).1
  exact hqp c h9

/-- `urlsplit` on a well-formed assembled URL recovers its parts, with the
scheme lower-cased. -/
theorem pyUrlsplit_buildUrl (sch host path query : List Char)
    (hs : schemeOkB sch = true) (hh : hostOkB host = true)
    (hp : pathOkB path = true)
    (hq : ∀ c ∈ query, 32 < c.toNat ∧ c ≠ '#' ∧ c ≠ '?') :
    pyUrlsplit (buildUrl sch host path query none) =
      ⟨sch.map pyLowerChar, host, path, query, []⟩ := by
  have hall : ∀ c ∈ buildUrl sch host path query none, 32 < c.toNat :=
    buildUrl_chars_gt32 sch host path query hs hh hp (fun c hc => (hq c hc).1)
  have hB : buildUrl sch host path query none =
      sch ++ ':' :: ('/' :: '/' :: (host ++ (path ++
        (if query.isEmpty then [] else '?' :: query)))) := by
    simp [buildUrl]
  rw [hB] at hall
  have h1 : (sch ++ ':' :: ('/' :: '/' :: (host ++ (path ++
        (if query.isEmpty then [] else '?' :: query))))).dropWhile
        isC0OrSpace =
      sch ++ ':' :: ('/' :: '/' :: (host ++ (path ++
        (if query.isEmpty then [] else '?' :: query)))) := by
    refine dropWhile_all_false _ _ (fun c hc => ?_)
    have h32 := hall c hc
    simp only [isC0OrSpace, decide_eq_false_iff_not]
    omega
  have h2 : (sch ++ ':' :: ('/' :: '/' :: (host ++ (path ++
        (if query.isEmpty then [] else '?' :: query))))).filter
      (fun c => !(c = Char.ofNat 9 || c = Char.ofNat 13 || c = Char.ofNat 10))
      = sch ++ ':' :: ('/' :: '/' :: (host ++ (path ++
        (if query.isEmpty then [] else '?' :: query)))) :=
    filter_tcn_of_gt32 _ hall
  have h3 : splitScheme (sch ++ ':' :: ('/' :: '/' :: (host ++ (path ++
        (if query.isEmpty then [] else '?' :: query))))) =
      some (sch, '/' :: '/' :: (host ++ (path ++
        (if query.isEmpty then [] else '?' :: query)))) :=
    splitScheme_append sch _ hs
  have hpathq : ∀ c ∈ path ++ (if query.isEmpty then ([] : List Char)
      else '?' :: query), c ≠ '#' ∧ c ≠ '?' ∨ c = '?' := by
    intro c hc
    rcases List.mem_append.mp hc with h4 | h5
    · have hf := pathCharOk_facts c ((pathOkB_facts path hp).1 c h4)
      exact Or.inl ⟨hf.2.2, hf.2.1⟩
    · by_cases hqe : query.isEmpty
      · rw [if_pos hqe] at h5; cases h5
      · rw [if_neg hqe] at h5
        rcases List.mem_cons.mp h5 with rfl | h6
        · exact Or.inr rfl
        · exact Or.inl ⟨(hq c h6).2.1, (hq c h6).2.2⟩
  have h5 : (host ++ (path ++ (if query.isEmpty then ([] : List Char)
        else '?' :: query))).takeWhile
        (fun c => !(c = '/' || c = '?' || c = '#')) = host := by
    rw [takeWhile_all_append _ _ _ (fun c hc => by
      have hf := hostCharOk_facts c (hostOkB_chars host hh c hc)
      simp [hf.2.1, hf.2.2.1, hf.2.2.2])]
    rw [takeWhile_nil_of_head _ _ (fun c hcc => ?_), List.append_nil]
    rcases (pathOkB_facts path hp).2 with hpe | hp1
    · subst hpe
      rw [List.nil_append] at hcc
      by_cases hqe : query.isEmpty
      · rw [if_pos hqe] at hcc; cases hcc
      · rw [if_neg hqe] at hcc
        simp only [List.head?_cons, Option.some.injEq] at hcc
        subst hcc
        decide
    · cases path with
      | nil => simp at hp1
      | cons p0 prest =>
        simp only [List.take, List.cons.injEq] at hp1
        rw [List.cons_append, List.head?_cons, Option.some.injEq] at hcc
        rw [← hcc, hp1.1]
        decide
  have h7 : splitFirstAt '#' (path ++ (if query.isEmpty then ([] : List Char)
        else '?' :: query)) =
      (path ++ (if query.isEmpty then ([] : List Char)
        else '?' :: query), none) := by
    refine splitFirstAt_not_mem '#' _ (fun c hc => ?_)
    rcases hpathq c hc with h8 | rfl
    · exact h8.1
    · decide
  have h8 : splitFirstAt '?' (path ++ (if query.isEmpty then ([] : List Char)
        else '?' :: query)) =
      (path, if query.isEmpty then none else some query) := by
    have hpnq : ∀ c ∈ path, c ≠ '?' := fun c hc =>
      (pathCharOk_facts c ((pathOkB_facts path hp).1 c hc)).2.1
    by_cases hqe : query.isEmpty
    · rw [if_pos hqe, if_pos hqe, List.append_nil]
      exact splitFirstAt_not_mem '?' path hpnq
    · rw [if_neg hqe, if_neg hqe]
      exact splitFirstAt_append '?' path query hpnq
  have h9 : (if query.isEmpty then (none : Option (List Char))
      else some query).getD [] = query := by
    by_cases hqe : query.isEmpty
    · rw [if_pos hqe, Option.getD_none]
      exact (List.isEmpty_iff.mp hqe).symm
    · rw [if_neg hqe, Option.getD_some]
  rw [hB]
  simp only [pyUrlsplit, h1, h2, h3, List.take_succ_cons, List.take_zero,
    List.drop_succ_cons, List.drop_zero, if_true, h5, List.drop_left, h7, h8,
    Option.getD_none, h9]

/-- `urlunsplit` on parts shaped like those of a well-formed absolute URL
reassembles exactly `buildUrl` with no fragment. -/
theorem pyUrlunsplit_buildUrl (scheme host path query : List Char)
    (hsch : scheme ≠ []) (hhost : host ≠ [])
    (hp : path = [] ∨ path.take 1 = ['/']) :
    pyUrlunsplit scheme host path query [] =
      buildUrl scheme host path query none := by
  have hhostE : host.isEmpty = false := by
    cases host with
    | nil => exact absurd rfl hhost
    | cons a l => rfl
  have hschE : scheme.isEmpty = false := by
    cases scheme with
    | nil => exact absurd rfl hsch
    | cons a l => rfl
  rcases hp with rfl | h1
  · by_cases hqe : query.isEmpty
    · have hq' : query = [] := List.isEmpty_iff.mp hqe
      subst hq'
      simp [pyUrlunsplit, buildUrl, hhostE, hschE]
    · simp [pyUrlunsplit, buildUrl, hhostE, hschE, hqe]
  · by_cases hqe : query.isEmpty
    · have hq' : query = [] := List.isEmpty_iff.mp hqe
      subst hq'
      simp [pyUrlunsplit, buildUrl, hhostE, hschE, h1]
    · simp [pyUrlunsplit, buildUrl, hhostE, hschE, h1, hqe]

/-- `String.mk` of a non-empty list is not the empty string. -/
theorem mk_ne_empty (l : List Char) (h : l ≠ []) : (⟨l⟩ : String) ≠ "" := by
  intro he
  exact h (congrArg String.data he)

/-- `norm_url` on a well-formed assembled URL: the fragment is dropped, the
deny-listed query parameters are removed (the others kept in order), the
host and path are unchanged, and the scheme is lower-cased. -/
theorem norm_url_buildUrl (sch host path : List Char)
    (pairs : List (List Char × List Char)) (frag : Option (List Char))
    (hs : schemeOkB sch = true) (hh : hostOkB host = true)
    (hp : pathOkB path = true) (hpr : pairsOkB pairs = true) :
    norm_url ⟨buildUrl sch host path (pyUrlencode pairs) frag⟩ =
      ⟨buildUrl (sch.map pyLowerChar) host path
        (pyUrlencode (pairs.filter
          (fun kv => !(TRACKING_PARAMS.contains kv.1)))) none⟩ := by
  have hq32 : ∀ c ∈ pyUrlencode pairs, 32 < c.toNat ∧ c ≠ '#' ∧ c ≠ '?' :=
    fun c hc => query_char_facts c (pyUrlencode_chars pairs hpr c hc)
  have hBfrag : buildUrl sch host path (pyUrlencode pairs) frag =
      buildUrl sch host path (pyUrlencode pairs) none ++
        (match frag with
         | none => []
         | some f => '#' :: f) := by
    cases frag with
    | none => simp [buildUrl]
    | some f => simp [buildUrl]
  have hprene : buildUrl sch host path (pyUrlencode pairs) none ≠ [] := by
    cases sch with
    | nil => simp [schemeOkB] at hs
    | cons c rest =>
      intro he
      have := congrArg List.length he
      simp [buildUrl] at this
  have hne : (⟨buildUrl sch host path (pyUrlencode pairs) frag⟩ : String)
      ≠ "" := by
    refine mk_ne_empty _ ?_
    rw [hBfrag]
    intro he
    exact hprene (List.append_eq_nil.mp he).1
  have hpre32 : ∀ c ∈ buildUrl sch host path (pyUrlencode pairs) none,
      32 < c.toNat :=
    buildUrl_chars_gt32 sch host path (pyUrlencode pairs) hs hh hp
      (fun c hc => (hq32 c hc).1)
  have htake : (buildUrl sch host path (pyUrlencode pairs) frag).takeWhile
      (fun c => c ≠ '#') = buildUrl sch host path (pyUrlencode pairs) none := by
    have hpreh : ∀ c ∈ buildUrl sch host path (pyUrlencode pairs) none,
        (fun c => decide (c ≠ '#')) c = true := by
      intro c hc
      simp only [decide_eq_true_eq, ne_eq]
      intro he
      subst he
      rcases List.mem_append.mp (by
        simpa [buildUrl] using hc :
          '#' ∈ sch ++ ':' :: ('/' :: '/' :: (host ++ (path ++
            (if (pyUrlencode pairs).isEmpty then []
             else '?' :: pyUrlencode pairs))))) with h1 | h2
      · exact absurd (schemeOkB_mem sch hs '#' h1) (by decide)
      · rcases List.mem_cons.mp h2 with h3 | h4
        · exact absurd h3 (by decide)
        rcases List.mem_cons.mp h4 with h5 | h6
        · exact absurd h5 (by decide)
        rcases List.mem_cons.mp h6 with h7 | h8
        · exact absurd h7 (by decide)
        rcases List.mem_append.mp h8 with h9 | h10
        · exact absurd rfl
            (hostCharOk_facts _ (hostOkB_chars host hh _ h9)).2.2.2
        rcases List.mem_append.mp h10 with h11 | h12
        · exact absurd rfl
            (pathCharOk_facts _ ((pathOkB_facts path hp).1 _ h11)).2.2
        · by_cases hqe : (pyUrlencode pairs).isEmpty
          · rw [if_pos hqe] at h12; cases h12
          · rw [if_neg hqe] at h12
            rcases List.mem_cons.mp h12 with h13 | h14
            · exact absurd h13 (by decide)
            · exact absurd rfl (hq32 _ h14).2.1
    rw [hBfrag]
    cases frag with
    | none =>
      rw [List.append_nil]
      have := takeWhile_all_append (fun c => decide (c ≠ '#'))
        (buildUrl sch host path (pyUrlencode pairs) none) [] hpreh
      rw [List.append_nil] at this
      rw [this]
      simp
    | some f =>
      rw [takeWhile_all_append (fun c => decide (c ≠ '#'))
        (buildUrl sch host path (pyUrlencode pairs) none) ('#' :: f) hpreh]
      rw [List.takeWhile_cons_of_neg (by simp), List.append_nil]
  have hlist : (⟨buildUrl sch host path (pyUrlencode pairs) frag⟩ :
      String).toList = buildUrl sch host path (pyUrlencode pairs) frag := rfl
  have hparse : pyParseQsl (pyUrlencode pairs) = pairs :=
    parse_qsl_urlencode pairs hpr
  unfold norm_url
  rw [if_neg hne]
  simp only [hlist, htake, stripList_of_gt32 _ hpre32,
    pyUrlsplit_buildUrl sch host path (pyUrlencode pairs) hs hh hp hq32,
    hparse]
  have hsplit : pyUrlunsplit (sch.map pyLowerChar) host path
      (pyUrlencode (pairs.filter
        (fun kv => !(TRACKING_PARAMS.contains kv.1)))) [] =
      buildUrl (sch.map pyLowerChar) host path
        (pyUrlencode (pairs.filter
          (fun kv => !(TRACKING_PARAMS.contains kv.1)))) none := by
    refine pyUrlunsplit_buildUrl _ _ _ _ ?_ (hostOkB_ne_nil host hh)
      (pathOkB_facts path hp).2
    cases sch with
    | nil => simp [schemeOkB] at hs
    | cons c rest => simp
  rw [hsplit]

/-- C7 (amended): empty input yields the empty string, and on every
well-formed absolute URL assembled from a plausible scheme, host, path,
percent-encoded query pairs and an optional fragment, `norm_url` strips the
fragment, removes exactly the deny-listed query parameters (preserving the
remaining pairs and their order), keeps the host and path unchanged, and
lower-cases the scheme (so the scheme is NOT left unchanged in general). -/
theorem c7_norm_url_amended :
    norm_url "" = "" ∧
    ∀ (sch host path : List Char) (pairs : List (List Char × List Char))
      (frag : Option (List Char)),
      schemeOkB sch = true → hostOkB host = true → pathOkB path = true →
      pairsOkB pairs = true →
      norm_url ⟨buildUrl sch host path (pyUrlencode pairs) frag⟩ =
        ⟨buildUrl (sch.map pyLowerChar) host path
          (pyUrlencode (pairs.filter
            (fun kv => !(TRACKING_PARAMS.contains kv.1)))) none⟩ := by
  refine ⟨rfl, fun sch host path pairs frag hs hh hp hpr => ?_⟩
  exact norm_url_buildUrl sch host path pairs frag hs hh hp hpr

/-- Witness for C7: a concrete URL with an upper-case scheme, one tracking
parameter, one ordinary parameter and a fragment. -/
theorem c7_norm_url_amended_witness :
    norm_url ⟨buildUrl "HTTP".toList "example.com".toList "/a".toList
      (pyUrlencode [("utm_source".toList, "x".toList),
        ("id".toList, "7".toList)]) (some "sec".toList)⟩ =
      ⟨buildUrl ("HTTP".toList.map pyLowerChar) "example.com".toList
        "/a".toList
        (pyUrlencode ([("utm_source".toList, "x".toList),
          ("id".toList, "7".toList)].filter
          (fun kv => !(TRACKING_PARAMS.contains kv.1)))) none⟩ :=
  c7_norm_url_amended.2 "HTTP".toList "example.com".toList "/a".toList
    [("utm_source".toList, "x".toList), ("id".toList, "7".toList)]
    (some "sec".toList) (by decide) (by decide) (by decide) (by decide)

/-- Counterexample to C7 as stated: `norm_url` lower-cases the scheme, so it
does not leave the scheme of every input unchanged. -/
theorem c7_norm_url_counterexample :
    norm_url "HTTP://example.com/a" = "http://example.com/a" ∧
      norm_url "HTTP://example.com/a" ≠ "HTTP://example.com/a" := by
  decide

/-- An element of the last position of a list is a member. -/
theorem mem_of_getLast (l : List Char) (c : Char) (h : l.getLast? = some c) :
    c ∈ l := by
  have h2 : l.reverse.head? = some c := by rw [List.head?_reverse]; exact h
  have := List.mem_of_mem_head? h2
  simpa using this

/-- `all isPyWs` over an append. -/
theorem allWs_append (a b : List Char) :
    allWs (a ++ b) = (allWs a && allWs b) := by
  simp [allWs, List.all_append]

/-- `all isPyWs` over a reversal. -/
theorem allWs_reverse (l : List Char) : allWs l.reverse = allWs l := by
  simp [allWs, List.all_reverse]

/-- `all isPyWs` is invariant under lower-casing. -/
theorem allWs_map_pyLower (w : List Char) :
    allWs (w.map pyLowerChar) = allWs w := by
  unfold allWs
  induction w with
  | nil => rfl
  | cons c w' ih => simp [List.all_cons, isPyWs_pyLowerChar, ih]

/-- `dropWhile isPyWs` consumes an all-whitespace prefix entirely. -/
theorem dropWhile_append_allWs (a b : List Char) (h : allWs a = true) :
    (a ++ b).dropWhile isPyWs = b.dropWhile isPyWs := by
  rw [List.dropWhile_append,
    List.dropWhile_eq_nil_iff.mpr (fun x hx => List.all_eq_true.mp h x hx)]
  rfl

/-- A prefix that is not all whitespace survives `dropWhile isPyWs`. -/
theorem dropWhile_ne_nil_of_not_allWs (a : List Char) (h : allWs a = false) :
    a.dropWhile isPyWs ≠ [] := by
  intro he
  have h2 := List.all_eq_true.mpr (List.dropWhile_eq_nil_iff.mp he)
  rw [show a.all isPyWs = allWs a from rfl, h] at h2
  cases h2

/-- `dropWhile isPyWs` stops inside a prefix that is not all whitespace. -/
theorem dropWhile_append_not_allWs (a b : List Char) (h : allWs a = false) :
    (a ++ b).dropWhile isPyWs = a.dropWhile isPyWs ++ b := by
  rw [List.dropWhile_append]
  rw [if_neg (by
    simpa [List.isEmpty_iff] using dropWhile_ne_nil_of_not_allWs a h)]

/-- A list whose last element is not whitespace is not all whitespace. -/
theorem not_allWs_of_getLast (a : List Char) (c : Char)
    (h : a.getLast? = some c) (hc : isPyWs c = false) : allWs a = false := by
  cases hall : allWs a with
  | false => rfl
  | true =>
    have := List.all_eq_true.mp hall c (mem_of_getLast a c h)
    rw [hc] at this
    cases this

/-- `dropWhile isPyWs` preserves the last element when its result is
non-empty. -/
theorem getLast_dropWhile (l : List Char) (h : l.dropWhile isPyWs ≠ []) :
    (l.dropWhile isPyWs).getLast? = l.getLast? := by
  obtain ⟨t, ht⟩ := List.dropWhile_suffix (l := l) isPyWs
  conv_rhs => rw [← ht]
  exact (List.getLast?_append_of_ne_nil t h).symm

/-- Unfolding equation for the collapse state machine on a cons cell. -/
theorem collapseWsAux_cons (c : Char) (rest : List Char) (f : Bool) :
    collapseWsAux (c :: rest) f =
      if isPyWs c then
        (if f then collapseWsAux rest true
         else Char.ofNat 32 :: collapseWsAux rest true)
      else c :: collapseWsAux rest false := rfl

/-- The collapse state machine is a Mealy machine: it processes an append
piecewise, threading the whitespace flag. -/
theorem collapseWsAux_append (x z : List Char) :
    ∀ f, collapseWsAux (x ++ z) f =
      collapseWsAux x f ++ collapseWsAux z (wsFlagAfter x f) := by
  induction x with
  | nil => intro f; rfl
  | cons c x' ih =>
    intro f
    have hflag : wsFlagAfter (c :: x') f = wsFlagAfter x' (isPyWs c) := rfl
    show collapseWsAux (c :: (x' ++ z)) f = _
    rw [collapseWsAux_cons, collapseWsAux_cons, hflag]
    by_cases hc : isPyWs c = true
    · rw [if_pos hc, if_pos hc, hc]
      by_cases hf : f = true
      · rw [if_pos hf, if_pos hf, ih true]
      · rw [if_neg hf, if_neg hf, ih true, List.cons_append]
    · rw [if_neg hc, if_neg hc]
      rw [Bool.not_eq_true] at hc
      rw [hc, ih false, List.cons_append]

/-- After an emitted space, an all-whitespace block is swallowed without
output. -/
theorem collapseWsAux_allWs_true (w B : List Char) (h : allWs w = true) :
    collapseWsAux (w ++ B) true = collapseWsAux B true := by
  induction w with
  | nil => rfl
  | cons c w' ih =>
    simp only [allWs, List.all_cons, Bool.and_eq_true] at h
    show collapseWsAux (c :: (w' ++ B)) true = _
    rw [collapseWsAux_cons, if_pos h.1, if_pos rfl]
    exact ih h.2

/-- A non-empty all-whitespace block emits at most one space: nothing when
the flag is set, one space otherwise, and leaves the flag set. -/
theorem collapseWsAux_allWs (w B : List Char) (f : Bool)
    (h : allWs w = true) (hne : w ≠ []) :
    collapseWsAux (w ++ B) f =
      (if f then [] else [Char.ofNat 32]) ++ collapseWsAux B true := by
  cases w with
  | nil => exact absurd rfl hne
  | cons c w' =>
    simp only [allWs, List.all_cons, Bool.and_eq_true] at h
    show collapseWsAux (c :: (w' ++ B)) f = _
    rw [collapseWsAux_cons, if_pos h.1]
    have hW : collapseWsAux (w' ++ B) true = collapseWsAux B true :=
      collapseWsAux_allWs_true w' B h.2
    by_cases hf : f = true
    · rw [if_pos hf, hf, hW]
      rfl
    · rw [if_neg hf, hW]
      rw [Bool.not_eq_true] at hf
      rw [hf]
      rfl

/-- The whitespace flag after a block is the whitespace status of its last
character. -/
theorem wsFlagAfter_getLast (x : List Char) (c : Char)
    (h : x.getLast? = some c) : ∀ f, wsFlagAfter x f = isPyWs c := by
  induction x with
  | nil => cases h
  | cons d x' ih =>
    intro f
    cases x' with
    | nil =>
      have hdc : d = c := by simpa using h
      subst hdc
      rfl
    | cons e x'' =>
      rw [List.getLast?_cons_cons] at h
      exact ih h (isPyWs d)

/-- Strip-then-collapse is insensitive to which non-empty whitespace run
separates two blocks. -/
theorem stripCollapse_ws_indep (a b w1 w2 : List Char)
    (h1 : allWs w1 = true) (hne1 : w1 ≠ [])
    (h2 : allWs w2 = true) (hne2 : w2 ≠ []) :
    collapseWs (stripList (a ++ w1 ++ b)) =
      collapseWs (stripList (a ++ w2 ++ b)) := by
  by_cases ha : allWs a = true
  · have e1 : (a ++ w1 ++ b).dropWhile isPyWs = b.dropWhile isPyWs :=
      dropWhile_append_allWs (a ++ w1) b (by rw [allWs_append, ha, h1]; rfl)
    have e2 : (a ++ w2 ++ b).dropWhile isPyWs = b.dropWhile isPyWs :=
      dropWhile_append_allWs (a ++ w2) b (by rw [allWs_append, ha, h2]; rfl)
    unfold stripList
    rw [e1, e2]
  · rw [Bool.not_eq_true] at ha
    by_cases hb : allWs b = true
    · have key : ∀ w : List Char, allWs w = true → w ≠ [] →
          stripList (a ++ w ++ b) =
            ((a.dropWhile isPyWs).reverse.dropWhile isPyWs).reverse := by
        intro w hw hwne
        have e1 : (a ++ w ++ b).dropWhile isPyWs =
            a.dropWhile isPyWs ++ (w ++ b) := by
          rw [List.append_assoc]
          exact dropWhile_append_not_allWs a (w ++ b) ha
        unfold stripList
        rw [e1, List.reverse_append, List.reverse_append]
        rw [dropWhile_append_allWs (b.reverse ++ w.reverse)
          ((a.dropWhile isPyWs).reverse) (by
            rw [allWs_append, allWs_reverse, allWs_reverse, hb, hw]; rfl)]
      rw [key w1 h1 hne1, key w2 h2 hne2]
    · rw [Bool.not_eq_true] at hb
      have key : ∀ w : List Char, allWs w = true → w ≠ [] →
          collapseWs (stripList (a ++ w ++ b)) =
            collapseWsAux (a.dropWhile isPyWs) false ++
              ((if wsFlagAfter (a.dropWhile isPyWs) false then []
                else [Char.ofNat 32]) ++
                collapseWsAux ((b.reverse.dropWhile isPyWs).reverse)
                  true) := by
        intro w hw hwne
        have e1 : (a ++ w ++ b).dropWhile isPyWs =
            a.dropWhile isPyWs ++ (w ++ b) := by
          rw [List.append_assoc]
          exact dropWhile_append_not_allWs a (w ++ b) ha
        have e2 : ((a.dropWhile isPyWs ++ (w ++ b)).reverse).dropWhile
            isPyWs = b.reverse.dropWhile isPyWs ++
              (w.reverse ++ (a.dropWhile isPyWs).reverse) := by
          rw [List.reverse_append, List.reverse_append, List.append_assoc]
          exact dropWhile_append_not_allWs b.reverse _
            (by rw [allWs_reverse]; exact hb)
        unfold stripList
        rw [e1, e2]
        rw [List.reverse_append, List.reverse_append, List.reverse_reverse,
          List.reverse_reverse]
        unfold collapseWs
        rw [List.append_assoc]
        rw [collapseWsAux_append (a.dropWhile isPyWs)
          (w ++ (b.reverse.dropWhile isPyWs).reverse) false]
        rw [collapseWsAux_allWs w ((b.reverse.dropWhile isPyWs).reverse)
          (wsFlagAfter (a.dropWhile isPyWs) false) hw hwne]
      rw [key w1 h1 hne1, key w2 h2 hne2]

/-- A quote glyph is neither whitespace nor an upper-case ASCII letter. -/
theorem quote_char_noWs (q : Char) (hq : q ∈ QUOTE_CHARS) :
    isPyWs q = false ∧ pyLowerChar q = q := by
  simp only [QUOTE_CHARS, List.mem_cons, List.not_mem_nil, or_false] at hq
  rcases hq with rfl | rfl | rfl | rfl | rfl <;> exact ⟨by decide, by decide⟩

/-- Quote removal distributes over append. -/
theorem removeQuotes_append (x y : List Char) :
    removeQuotes (x ++ y) = removeQuotes x ++ removeQuotes y := by
  unfold removeQuotes
  exact List.filter_append x y

/-- Quote removal deletes a leading quote glyph. -/
theorem removeQuotes_quote_cons (q : Char) (y : List Char)
    (hq : q ∈ QUOTE_CHARS) : removeQuotes (q :: y) = removeQuotes y := by
  unfold removeQuotes
  refine List.filter_cons_of_neg ?_
  have hel : QUOTE_CHARS.elem q = true := List.elem_iff.mpr hq
  simp [List.contains, hel]
  exact hq

/-- Deleting a quote glyph that directly follows a non-whitespace character
does not change the strip/collapse/unquote pipeline's output. -/
theorem stripCollapseQuote (a b : List Char) (q c : Char)
    (hq : q ∈ QUOTE_CHARS) (hlast : a.getLast? = some c)
    (hc : isPyWs c = false) :
    removeQuotes (collapseWs (stripList (a ++ q :: b))) =
      removeQuotes (collapseWs (stripList (a ++ b))) := by
  have hqw : isPyWs q = false := (quote_char_noWs q hq).1
  have ha : allWs a = false := not_allWs_of_getLast a c hlast hc
  have ha0ne : a.dropWhile isPyWs ≠ [] := dropWhile_ne_nil_of_not_allWs a ha
  have ha0last : (a.dropWhile isPyWs).getLast? = some c := by
    rw [getLast_dropWhile a ha0ne]; exact hlast
  have hflag0 : wsFlagAfter (a.dropWhile isPyWs) false = false := by
    rw [wsFlagAfter_getLast (a.dropWhile isPyWs) c ha0last false, hc]
  have hrevhead : (a.dropWhile isPyWs).reverse.head? = some c := by
    rw [List.head?_reverse]; exact ha0last
  have hrevdrop : (a.dropWhile isPyWs).reverse.dropWhile isPyWs =
      (a.dropWhile isPyWs).reverse := by
    cases hrev : (a.dropWhile isPyWs).reverse with
    | nil => rfl
    | cons d t =>
      rw [hrev] at hrevhead
      rw [List.head?_cons, Option.some.injEq] at hrevhead
      subst hrevhead
      exact List.dropWhile_cons_of_neg (by simp [hc])
  have e1 : (a ++ q :: b).dropWhile isPyWs =
      a.dropWhile isPyWs ++ q :: b :=
    dropWhile_append_not_allWs a (q :: b) ha
  have e1' : (a ++ b).dropWhile isPyWs = a.dropWhile isPyWs ++ b :=
    dropWhile_append_not_allWs a b ha
  have hcons : ∀ y : List Char, collapseWsAux (q :: y) false =
      q :: collapseWsAux y false := by
    intro y
    rw [collapseWsAux_cons, if_neg (by simp [hqw])]
  by_cases hb : allWs b = true
  · have s1 : stripList (a ++ q :: b) = a.dropWhile isPyWs ++ [q] := by
      unfold stripList
      rw [e1, List.reverse_append, List.reverse_cons, List.append_assoc]
      rw [dropWhile_append_allWs b.reverse _ (by rw [allWs_reverse]; exact hb)]
      show (([q] ++ (a.dropWhile isPyWs).reverse).dropWhile isPyWs).reverse
        = _
      rw [show ([q] ++ (a.dropWhile isPyWs).reverse) =
        q :: (a.dropWhile isPyWs).reverse from rfl]
      rw [List.dropWhile_cons_of_neg (by simp [hqw])]
      rw [List.reverse_cons, List.reverse_reverse]
    have s2 : stripList (a ++ b) = a.dropWhile isPyWs := by
      unfold stripList
      rw [e1', List.reverse_append]
      rw [dropWhile_append_allWs b.reverse _ (by rw [allWs_reverse]; exact hb)]
      rw [hrevdrop, List.reverse_reverse]
    rw [s1, s2]
    unfold collapseWs
    rw [collapseWsAux_append (a.dropWhile isPyWs) [q] false, hflag0]
    rw [show collapseWsAux [q] false = [q] from by
      rw [collapseWsAux_cons, if_neg (by simp [hqw])]
      rfl]
    rw [removeQuotes_append]
    rw [removeQuotes_quote_cons q [] hq]
    show removeQuotes _ ++ removeQuotes [] = _
    rw [show removeQuotes [] = [] from rfl, List.append_nil]
  · rw [Bool.not_eq_true] at hb
    have s1 : stripList (a ++ q :: b) = a.dropWhile isPyWs ++
        q :: (b.reverse.dropWhile isPyWs).reverse := by
      unfold stripList
      rw [e1, List.reverse_append, List.reverse_cons, List.append_assoc]
      rw [dropWhile_append_not_allWs b.reverse _
        (by rw [allWs_reverse]; exact hb)]
      simp [List.append_assoc]
    have s2 : stripList (a ++ b) = a.dropWhile isPyWs ++
        (b.reverse.dropWhile isPyWs).reverse := by
      unfold stripList
      rw [e1', List.reverse_append]
      rw [dropWhile_append_not_allWs b.reverse _
        (by rw [allWs_reverse]; exact hb)]
      rw [List.reverse_append, List.reverse_reverse]
    rw [s1, s2]
    unfold collapseWs
    rw [collapseWsAux_append (a.dropWhile isPyWs)
      (q :: (b.reverse.dropWhile isPyWs).reverse) false, hflag0]
    rw [collapseWsAux_append (a.dropWhile isPyWs)
      ((b.reverse.dropWhile isPyWs).reverse) false, hflag0]
    rw [hcons ((b.reverse.dropWhile isPyWs).reverse)]
    rw [removeQuotes_append, removeQuotes_append]
    rw [removeQuotes_quote_cons q _ hq]

/-- `normalize_title` is insensitive to which non-empty whitespace run
separates two blocks. -/
theorem normalize_title_ws_indep (a b w1 w2 : List Char)
    (h1 : allWs w1 = true) (hne1 : w1 ≠ [])
    (h2 : allWs w2 = true) (hne2 : w2 ≠ []) :
    normalize_title ⟨a ++ w1 ++ b⟩ = normalize_title ⟨a ++ w2 ++ b⟩ := by
  have key : ∀ w : List Char, w ≠ [] →
      normalize_title ⟨a ++ w ++ b⟩ =
        ⟨removeQuotes (collapseWs (stripList (a.map pyLowerChar ++
          w.map pyLowerChar ++ b.map pyLowerChar)))⟩ := by
    intro w hwne
    have hne : a ++ w ++ b ≠ [] := by
      intro he
      rcases List.append_eq_nil.mp he with ⟨he1, _⟩
      exact hwne (List.append_eq_nil.mp he1).2
    unfold normalize_title
    rw [if_neg (mk_ne_empty _ hne)]
    have htl : (⟨a ++ w ++ b⟩ : String).toList = a ++ w ++ b := rfl
    rw [htl, ← stripList_map_pyLower, List.map_append, List.map_append]
  rw [key w1 hne1, key w2 hne2]
  exact congrArg (fun l => (⟨removeQuotes l⟩ : String))
    (stripCollapse_ws_indep (a.map pyLowerChar) (b.map pyLowerChar)
      (w1.map pyLowerChar) (w2.map pyLowerChar)
      (by rw [allWs_map_pyLower]; exact h1)
      (fun he => hne1 (List.map_eq_nil_iff.mp he))
      (by rw [allWs_map_pyLower]; exact h2)
      (fun he => hne2 (List.map_eq_nil_iff.mp he)))

/-- `normalize_title` is insensitive to a quote glyph that directly follows
a non-whitespace character. -/
theorem normalize_title_quote_indep (a b : List Char) (q c : Char)
    (hq : q ∈ QUOTE_CHARS) (hlast : a.getLast? = some c)
    (hc : isPyWs c = false) :
    normalize_title ⟨a ++ q :: b⟩ = normalize_title ⟨a ++ b⟩ := by
  have hane : a ≠ [] := by
    intro he
    subst he
    cases hlast
  have hne1 : a ++ q :: b ≠ [] := by
    intro he
    exact hane (List.append_eq_nil.mp he).1
  have hne2 : a ++ b ≠ [] := by
    intro he
    exact hane (List.append_eq_nil.mp he).1
  unfold normalize_title
  rw [if_neg (mk_ne_empty _ hne1), if_neg (mk_ne_empty _ hne2)]
  have htl1 : (⟨a ++ q :: b⟩ : String).toList = a ++ q :: b := rfl
  have htl2 : (⟨a ++ b⟩ : String).toList = a ++ b := rfl
  rw [htl1, htl2, ← stripList_map_pyLower, ← stripList_map_pyLower,
    List.map_append, List.map_append]
  rw [show (q :: b).map pyLowerChar = q :: b.map pyLowerChar from by
    rw [List.map_cons, (quote_char_noWs q hq).2]]
  exact congrArg (fun l => (⟨l⟩ : String))
    (stripCollapseQuote (a.map pyLowerChar) (b.map pyLowerChar) q
      (pyLowerChar c) hq
      (by rw [List.getLast?_map, hlast]; rfl)
      (by rw [isPyWs_pyLowerChar]; exact hc))

set_option maxRecDepth 8192 in
/-- C1 (amended): the fingerprint depends only on the canonical URL and the
canonical title: equal `norm_url`/`normalize_title` values give equal
fingerprints; URLs that differ only by deny-listed tracking parameters or by
the fragment fingerprint alike; the title may be lower-cased, may have any
non-empty whitespace run replaced by any other, and may drop a stripped
quote glyph PROVIDED the glyph directly follows a non-whitespace character
(dropping a glyph surrounded by whitespace can change the fingerprint,
because quote removal runs after whitespace collapsing); and the spec's
scenario pair receives one fingerprint. -/
theorem c1_fingerprint_amended :
    (∀ u1 u2 t1 t2 : String, norm_url u1 = norm_url u2 →
      normalize_title t1 = normalize_title t2 →
      make_fingerprint u1 t1 = make_fingerprint u2 t2) ∧
    (∀ (sch host path : List Char)
      (pairs1 pairs2 : List (List Char × List Char))
      (frag1 frag2 : Option (List Char)) (t : String),
      schemeOkB sch = true → hostOkB host = true → pathOkB path = true →
      pairsOkB pairs1 = true → pairsOkB pairs2 = true →
      pairs1.filter (fun kv => !(TRACKING_PARAMS.contains kv.1)) =
        pairs2.filter (fun kv => !(TRACKING_PARAMS.contains kv.1)) →
      make_fingerprint ⟨buildUrl sch host path (pyUrlencode pairs1) frag1⟩
          t =
        make_fingerprint ⟨buildUrl sch host path (pyUrlencode pairs2) frag2⟩
          t) ∧
    (∀ (u t : String),
      make_fingerprint u ⟨t.toList.map pyLowerChar⟩ =
        make_fingerprint u t) ∧
    (∀ (u : String) (a b w1 w2 : List Char),
      allWs w1 = true → w1 ≠ [] → allWs w2 = true → w2 ≠ [] →
      make_fingerprint u ⟨a ++ w1 ++ b⟩ =
        make_fingerprint u ⟨a ++ w2 ++ b⟩) ∧
    (∀ (u : String) (a b : List Char) (q c : Char),
      q ∈ QUOTE_CHARS → a.getLast? = some c → isPyWs c = false →
      make_fingerprint u ⟨a ++ q :: b⟩ = make_fingerprint u ⟨a ++ b⟩) ∧
    make_fingerprint "https://example.com/a?utm_source=x" "Foo Bar" =
      make_fingerprint "https://example.com/a" "foo   bar" := by
  have hcong : ∀ u1 u2 t1 t2 : String, norm_url u1 = norm_url u2 →
      normalize_title t1 = normalize_title t2 →
      make_fingerprint u1 t1 = make_fingerprint u2 t2 := by
    intro u1 u2 t1 t2 hu ht
    unfold make_fingerprint
    rw [hu, ht]
  refine ⟨hcong, ?_, ?_, ?_, ?_, ?_⟩
  · intro sch host path pairs1 pairs2 frag1 frag2 t hs hh hp hp1 hp2 hfilt
    refine hcong _ _ _ _ ?_ rfl
    rw [norm_url_buildUrl sch host path pairs1 frag1 hs hh hp hp1,
      norm_url_buildUrl sch host path pairs2 frag2 hs hh hp hp2, hfilt]
  · intro u t
    exact hcong u u _ t rfl (normalize_title_lower t).symm
  · intro u a b w1 w2 h1 hne1 h2 hne2
    exact hcong u u _ _ rfl
      (normalize_title_ws_indep a b w1 w2 h1 hne1 h2 hne2)
  · intro u a b q c hq hlast hcw
    exact hcong u u _ _ rfl
      (normalize_title_quote_indep a b q c hq hlast hcw)
  · exact hcong _ _ _ _ (by decide) (by decide)

/-- Witness for C1: deleting a straight double quote right after a
non-whitespace character preserves the fingerprint. -/
theorem c1_fingerprint_amended_witness :
    make_fingerprint "u" ⟨['x', Char.ofNat 34, 'y']⟩ =
      make_fingerprint "u" ⟨['x', 'y']⟩ :=
  c1_fingerprint_amended.2.2.2.2.1 "u" ['x'] ['y'] (Char.ofNat 34) 'x'
    (by decide) (by decide) (by decide)

set_option maxRecDepth 8192 in
/-- Counterexample to C1 as stated: the two titles differ only by a stripped
quote glyph (a straight double quote between two spaces), yet their
fingerprints differ, because quote removal happens only after whitespace
collapsing. -/
theorem c1_fingerprint_counterexample :
    Char.ofNat 34 ∈ QUOTE_CHARS ∧
    ("a \" b" : String).toList = ['a', ' '] ++ Char.ofNat 34 :: [' ', 'b'] ∧
    ("a  b" : String).toList = ['a', ' '] ++ [' ', 'b'] ∧
    make_fingerprint "u" "a \" b" ≠ make_fingerprint "u" "a  b" := by
  refine ⟨by decide, by decide, by decide, by decide⟩

end BCNews
